import Mathlib

set_option maxHeartbeats 1000000

/-!
Shallow embedding of the fuzzycp resolution pipeline (src/fuzzycp.py).

Strings are modelled as `List Char`.  The external similarity scorer
(rapidfuzz `fuzz.WRatio`) is an injected capability `score : Str → Str → Nat`
returning an integral value in [0,100], per the spec's scorer contract.
The observable behaviour of the script body (I/O, prompt, directory
creation, copy/move operations, exit) is modelled as an ordered list of
`Effect`s produced by `mainTrace`.
-/

abbrev Str := List Char

/-- ASCII whitespace recognised by the regex class in `BRACKETED` and by
Python `str.split()` / `str.strip()` on the filename alphabet. -/
def isWs (c : Char) : Bool :=
  c == ' ' || c == '\t' || c == '\n' || c == '\r' || c == '\x0b' || c == '\x0c'

def notWs (c : Char) : Bool := !(isWs c)

/-- Opening brackets of the `BRACKETED` regex (src/fuzzycp.py line 123). -/
def isOpenB (c : Char) : Bool := c == '[' || c == '(' || c == '\x7b'

/-- Closing brackets of the `BRACKETED` regex; the regex accepts any of the
three closers after any of the three openers. -/
def isCloseB (c : Char) : Bool := c == ']' || c == ')' || c == '\x7d'

/-- Python `str.strip()`: drop leading and trailing whitespace
(src/fuzzycp.py lines 65 and 133). -/
def pyStrip (s : Str) : Str := ((s.dropWhile isWs).reverse.dropWhile isWs).reverse

/-- Python `str.lower()` on the ASCII answers read from the prompt. -/
def pyLower (s : Str) : Str := s.map Char.toLower

def splitLinesAux : Str → Str → List Str
  | [], acc => [acc.reverse]
  | c :: cs, acc =>
    if c == '\n' then acc.reverse :: splitLinesAux cs [] else splitLinesAux cs (c :: acc)

/-- Line iteration of a text file (`for line in file`). -/
def splitLines (s : Str) : List Str := splitLinesAux s []

/-- `read_names` body (src/fuzzycp.py lines 61-66): one name per line,
stripped, blank lines dropped. -/
def readNamesContent (s : Str) : List Str :=
  ((splitLines s).map pyStrip).filter (fun t => !t.isEmpty)

/-- `Path(f).stem` (src/fuzzycp.py line 127) for plain filenames, as produced
by `glob.glob('*')` in the working directory (no path separator): the suffix
after the last dot is dropped exactly when that dot is neither the first nor
the last character of the name (pathlib semantics for `.hidden`, `name.`). -/
def pyStem (s : Str) : Str :=
  match s.reverse.dropWhile (fun c => c != '.') with
  | [] => s
  | _ :: b => if s.reverse.takeWhile (fun c => c != '.') = [] ∨ b = [] then s else b.reverse

/-- `s.replace("_", " ")` (src/fuzzycp.py line 129): single-character
replacement is a character map. -/
def replUnderscore (s : Str) : Str := s.map (fun c => if c == '_' then ' ' else c)

/-- `.replace("-", " ")` (src/fuzzycp.py line 129). -/
def replHyphen (s : Str) : Str := s.map (fun c => if c == '-' then ' ' else c)

/-- One match attempt of the regex
`\s*[\[\(\{][^\]\)\}]*[\]\)\}]\s*` at the head of `l` (the pattern compiled
at src/fuzzycp.py line 123).  The leading `\s*` can only succeed greedily
(after backtracking an opening bracket would be required where a whitespace
character stands), the middle class excludes every closer so its greedy run
ends at the first closer, and the trailing `\s*` is final hence greedy.
On success, returns the remainder of the string after the whole match. -/
def spanMatch (l : Str) : Option Str :=
  match l.dropWhile isWs with
  | [] => none
  | b :: rest =>
    if isOpenB b then
      match rest.dropWhile (fun c => !(isCloseB c)) with
      | [] => none
      | _ :: rest3 => some (rest3.dropWhile isWs)
    else none

/-- Fuel-indexed left-to-right scanning of `re.sub`: at each position try a
match; on success emit the replacement `" "` and continue after the match,
otherwise keep the character and move one position right. -/
def bsubGo : Nat → Str → Str
  | 0, l => l
  | _ + 1, [] => []
  | n + 1, c :: cs =>
    match spanMatch (c :: cs) with
    | some r => ' ' :: bsubGo n r
    | none => c :: bsubGo n cs

/-- `BRACKETED.sub(" ", s)` (src/fuzzycp.py line 130). -/
def bracketSub (l : Str) : Str := bsubGo l.length l

/-- Fuel-indexed Python `str.split()`: skip whitespace, read a maximal
non-whitespace token, repeat. -/
def pySplitGo : Nat → Str → List Str
  | 0, _ => []
  | _ + 1, [] => []
  | n + 1, c :: cs =>
    if isWs c then pySplitGo n cs
    else (c :: cs.takeWhile notWs) :: pySplitGo n (cs.dropWhile notWs)

/-- Python `s.split()` with no argument. -/
def pySplit (l : Str) : List Str := pySplitGo l.length l

/-- `" ".join(tokens)`. -/
def joinSpace : List Str → Str
  | [] => []
  | [t] => t
  | t :: ts => t ++ ' ' :: joinSpace ts

/-- `preprocessing` loop body (src/fuzzycp.py lines 126-133) for a single
filename: stem, separator replacement, bracketed-span removal, whitespace
normalisation, final strip. -/
def preprocessOne (f : Str) : Str :=
  pyStrip (joinSpace (pySplit (bracketSub (replHyphen (replUnderscore (pyStem f))))))

/-- `preprocessing(files)` (src/fuzzycp.py lines 122-135). -/
def preprocessing (files : List Str) : List Str := files.map preprocessOne

/-- `process.extractOne(name, filenames, scorer=fuzz.WRatio)` (src/fuzzycp.py
line 40): the best-scoring choice, the first one encountered winning among
equal maxima; `none` exactly when the choice list is empty. -/
def extractOne (score : Str → Str → Nat) (q : Str) (choices : List Str) : Option (Str × Nat) :=
  match choices with
  | [] => none
  | c :: cs =>
    some (cs.foldl (fun best x => if score q x > best.2 then (x, score q x) else best)
      (c, score q c))

/-- Python dict assignment `matches[name] = v`: update in place when the key
is present (keeping its position), append otherwise. -/
def dictInsert (k : Str) (v : Str × Nat) : List (Str × Str × Nat) → List (Str × Str × Nat)
  | [] => [(k, v.1, v.2)]
  | (k', w) :: rest =>
    if k' = k then (k', v.1, v.2) :: rest else (k', w) :: dictInsert k v rest

/-- `file_matching(names, filenames)` (src/fuzzycp.py lines 35-46): an
insertion-ordered dict from each name to its best matching key and score;
names with an empty choice list are dropped. -/
def fileMatching (score : Str → Str → Nat) (names filenames : List Str) :
    List (Str × Str × Nat) :=
  names.foldl (fun m name =>
    match extractOne score name filenames with
    | some kv => dictInsert name kv m
    | none => m) []

/-- `map_orig.setdefault(cleaned, []).append(orig)` (src/fuzzycp.py line 166). -/
def groupInsert (k v : Str) : List (Str × List Str) → List (Str × List Str)
  | [] => [(k, [v])]
  | (k', vs) :: rest =>
    if k' = k then (k', vs ++ [v]) :: rest else (k', vs) :: groupInsert k v rest

/-- `map_orig` construction (src/fuzzycp.py lines 164-166) over
`zip(files_cleaned, files)`. -/
def buildMapOrig (files : List Str) : List (Str × List Str) :=
  ((preprocessing files).zip files).foldl (fun d p => groupInsert p.1 p.2 d) []

/-- Dict lookup; the source indexes `map_orig[cleaned_fn]` without a guard,
which is proved safe for the keys produced by `file_matching`. -/
def dictGet (d : List (Str × List Str)) (k : Str) : Option (List Str) :=
  (d.find? (fun p => decide (p.1 = k))).map (fun p => p.2)

def catMap {α β : Type} (f : α → List β) : List α → List β
  | [] => []
  | a :: l => f a ++ catMap f l

/-- `round(score)` (src/fuzzycp.py line 183); the scorer is modelled as
integer-valued per the spec's `[0,100]` contract, so rounding is the
identity. -/
def pyRound (n : Nat) : Nat := n

/-- `rows` construction (src/fuzzycp.py lines 178-183): iterate the match
dict, skip an entry when `score < threshold`, otherwise emit one row per
original filename in the entry's key group. -/
def rowsFor (score : Str → Str → Nat) (names files : List Str) (t : Nat) :
    List (Str × Str × Nat) :=
  catMap (fun e =>
      if e.2.2 < t then []
      else ((dictGet (buildMapOrig files) e.2.1).getD []).map
        (fun orig => (e.1, orig, pyRound e.2.2)))
    (fileMatching score names (preprocessing files))

/-- `filtered_files` (src/fuzzycp.py lines 235-239): the same match dict,
entries kept when `score >= threshold`, expanded to their original files. -/
def filteredFiles (score : Str → Str → Nat) (names files : List Str) (t : Nat) : List Str :=
  catMap (fun e => if t ≤ e.2.2 then (dictGet (buildMapOrig files) e.2.1).getD [] else [])
    (fileMatching score names (preprocessing files))

/-- Parsed command-line arguments (src/fuzzycp.py lines 81-119): positional
names file, disk-space flag, copy destination, move destination, output
target, threshold. -/
structure Args where
  names : Str
  space : Bool
  copy : Option Str
  move : Option Str
  output : Option Str
  threshold : Nat

/-- The run's external inputs: the names file content (`none` when the file
is missing), the working-directory file listing in listing order, the
operator's answer to the confirmation prompt, the injected scorer and the
file-size oracle used by `os.path.getsize`. -/
structure World where
  namesFile : Option Str
  dirFiles : List Str
  answer : Str
  score : Str → Str → Nat
  size : Str → Nat

/-- Observable actions of the script, in program order. -/
inductive Effect where
  | openOutput (path : Str)
  | readNamesFile (path : Str)
  | listDir
  | printOut (line : Str)
  | printErr (line : Str)
  | writeOut (line : Str)
  | printHeader
  | printTableRow (name orig : Str) (sc : Nat)
  | printTotal (bytes : Nat)
  | prompt (copying : Bool)
  | mkdirParents (path : Str)
  | copyFile (src dst : Str)
  | moveFile (src dst : Str)
  | exitProg (code : Nat)
deriving DecidableEq

/-- Message printed by `read_names` on `FileNotFoundError` (line 68). -/
def errNotFound (p : Str) : Str :=
  ("Error: The file at ").toList ++ p ++ (" was not found.").toList

def noNamesMsg : Str := ("Error: no names to match (file empty or not found).").toList

def bothMsg : Str := ("Please specify move or copy, not both.").toList

def cancelMsg : Str := ("Operation cancelled.").toList

def dashStr : Str := ("-").toList

def yStr : Str := ("y").toList

/-- Python truthiness of `args.output` at line 187 (`None` and the empty
string are falsy). -/
def outputTruthy (o : Option Str) : Bool :=
  match o with
  | none => false
  | some p => !p.isEmpty

/-- `read_names(args.names)` (line 152): empty when the file is missing. -/
def readNamesW (w : World) : List Str :=
  match w.namesFile with
  | none => []
  | some content => readNamesContent content

/-- `total` accumulation (lines 175-185): byte sizes of kept rows' originals. -/
def totalBytes (size : Str → Nat) (rows : List (Str × Str × Nat)) : Nat :=
  rows.foldl (fun acc r => acc + size r.2.1) 0

/-- `dst / src.name`: PurePath join of the destination directory and a name. -/
def pathJoin (d f : Str) : Str := d ++ '/' :: f

/-- `Path(original_fn).name` for the relative filenames produced by glob. -/
def baseName (s : Str) : Str := (s.reverse.takeWhile (fun c => c != '/')).reverse

/-- Report phase (src/fuzzycp.py lines 187-212): listing mode writes each
row's original path to the output target, one per line; table mode prints a
header, an aligned row per kept row, and, when the space flag is set, the
humanized disk-space total. -/
def reportFx (a : Args) (w : World) (rows : List (Str × Str × Nat)) : List Effect :=
  if outputTruthy a.output then rows.map (fun r => Effect.writeOut r.2.1)
  else
    (Effect.printHeader :: rows.map (fun r => Effect.printTableRow r.1 r.2.1 r.2.2)) ++
      (if a.space then [Effect.printTotal (totalBytes w.size rows)] else [])

/-- Transfer loop (src/fuzzycp.py lines 241-245): one copy or move per
filtered file, destination = destination directory + base name. -/
def transferOps (copying : Bool) (dst : Str) (fs : List Str) : List Effect :=
  fs.map (fun f =>
    if copying then Effect.copyFile f (pathJoin dst (baseName f))
    else Effect.moveFile f (pathJoin dst (baseName f)))

/-- File-operations phase (src/fuzzycp.py lines 216-248): the copy/move
conflict check, the confirmation prompt, and—on a lowercase answer equal to
`"y"`—directory creation followed by the transfer loop; any other answer
prints the cancellation message.  The script then terminates normally. -/
def transferFx (a : Args) (w : World) (names : List Str) : List Effect :=
  match a.copy, a.move with
  | some _, some _ => [Effect.printOut bothMsg, Effect.exitProg 1]
  | some d, none =>
    ([Effect.prompt true, Effect.printOut []] ++
      (if pyLower w.answer = yStr then
        Effect.mkdirParents d ::
          transferOps true d (filteredFiles w.score names w.dirFiles a.threshold)
      else [Effect.printOut cancelMsg])) ++ [Effect.exitProg 0]
  | none, some d =>
    ([Effect.prompt false, Effect.printOut []] ++
      (if pyLower w.answer = yStr then
        Effect.mkdirParents d ::
          transferOps false d (filteredFiles w.score names w.dirFiles a.threshold)
      else [Effect.printOut cancelMsg])) ++ [Effect.exitProg 0]
  | none, none => [Effect.exitProg 0]

/-- Observable behaviour of the script body (src/fuzzycp.py lines 141-248)
in program order: output-target opening (lines 145-149), names reading and
validation (lines 151-155), directory listing (line 158), the report phase,
then the file-operations phase. -/
def mainTrace (a : Args) (w : World) : List Effect :=
  (match a.output with
   | none => []
   | some p => if p = dashStr then [] else [Effect.openOutput p]) ++
  (Effect.readNamesFile a.names ::
    (match w.namesFile with
     | none => [Effect.printOut (errNotFound a.names)]
     | some _ => [])) ++
  (if readNamesW w = [] then [Effect.printErr noNamesMsg, Effect.exitProg 1]
   else
     Effect.listDir ::
       (reportFx a w (rowsFor w.score (readNamesW w) w.dirFiles a.threshold) ++
         transferFx a w (readNamesW w)))

/-- Disk-mutating actions: directory creation, copy, move. -/
def Effect.mutates : Effect → Bool
  | .mkdirParents _ => true
  | .copyFile _ _ => true
  | .moveFile _ _ => true
  | _ => false

def Effect.isPrompt : Effect → Bool
  | .prompt _ => true
  | _ => false

/-- Actions of the transfer phase proper: prompting, directory creation,
copying, moving. -/
def Effect.transferSide (e : Effect) : Bool := e.mutates || e.isPrompt

/-- Every action other than process exit performs input or output. -/
def Effect.isIO : Effect → Bool
  | .exitProg _ => false
  | _ => true

/-- Table-mode presentation: header, aligned rows, aggregate total. -/
def Effect.isAggregate : Effect → Bool
  | .printHeader => true
  | .printTableRow _ _ _ => true
  | .printTotal _ => true
  | _ => false

/-- The lines written to the explicit output target, in order. -/
def writtenLines (t : List Effect) : List Str :=
  t.filterMap (fun e => match e with | Effect.writeOut l => some l | _ => none)

/-- `_threshold_type` (src/fuzzycp.py lines 72-78): accept an integer in
[0,100], reject anything else. -/
def thresholdType (v : Int) : Option Nat :=
  if 0 ≤ v ∧ v ≤ 100 then some v.toNat else none

/-- Default of the threshold flag (src/fuzzycp.py line 115). -/
def defaultThreshold : Nat := 50

/-- Modelled from the spec: normalisation step 1 exactly as the spec words
it — "strip the file extension (substring after, and including, the final
`.`); if no extension, leave unchanged", reading "no extension" as "no dot". -/
def specStem (s : Str) : Str :=
  match s.reverse.dropWhile (fun c => c != '.') with
  | [] => s
  | _ :: b => b.reverse

def closeFor (c : Char) : Char :=
  if c == '[' then ']' else if c == '(' then ')' else '\x7d'

/-- Modelled from the spec: one bracketed span as the spec words it —
delimited by one of `[...]`, `(...)`, `\x7b...\x7d` (an opening bracket closed
by the matching closer of the same kind, non-nested), with surrounding
whitespace. -/
def pairSpanMatch (l : Str) : Option Str :=
  match l.dropWhile isWs with
  | [] => none
  | b :: rest =>
    if isOpenB b then
      match rest.dropWhile (fun c => !(isCloseB c)) with
      | [] => none
      | c :: rest3 => if c == closeFor b then some (rest3.dropWhile isWs) else none
    else none

def pairGo : Nat → Str → Str
  | 0, l => l
  | _ + 1, [] => []
  | n + 1, c :: cs =>
    match pairSpanMatch (c :: cs) with
    | some r => ' ' :: pairGo n r
    | none => c :: pairGo n cs

/-- Modelled from the spec: removal of every maximal matching-pair bracketed
span together with surrounding whitespace, each replaced by a single space. -/
def pairBracketSub (l : Str) : Str := pairGo l.length l

/-- `name.rfind('.')` computed left to right with explicit indices. -/
def lastDotIdxAux : Str → Nat → Option Nat
  | [], _ => none
  | c :: cs, i =>
    match lastDotIdxAux cs (i + 1) with
    | some j => some j
    | none => if c == '.' then some i else none

/-- Reference step 1 after amendment: the final dot starts an extension only
when its index is neither 0 nor the last position (pathlib stem semantics),
written with explicit index arithmetic. -/
def refStem (s : Str) : Str :=
  match lastDotIdxAux s 0 with
  | none => s
  | some i => if 0 < i ∧ i < s.length - 1 then s.take i else s

/-- Reference step 2: replace underscore and hyphen characters by a single
space, as one character map. -/
def refSep (s : Str) : Str := s.map (fun c => if c == '_' || c == '-' then ' ' else c)

/-- Fuel-indexed collapse of whitespace runs to single spaces. -/
def collGo : Nat → Str → Str
  | 0, l => l
  | _ + 1, [] => []
  | n + 1, c :: cs =>
    if isWs c then ' ' :: collGo n (cs.dropWhile isWs) else c :: collGo n cs

/-- Reference step 4, first half: collapse any whitespace run to one space. -/
def collapseRuns (l : Str) : Str := collGo l.length l

/-- Modelled from the spec: the four-step reference normalisation exactly as
the spec words it (spec §4.1). -/
def specNormalize (s : Str) : Str :=
  pyStrip (collapseRuns (pairBracketSub (refSep (specStem s))))

/-- The reference normalisation with the two amendments the code forces:
step 1 uses pathlib stem semantics and step 3 closes a span at the first
closing bracket of any kind. -/
def refNormalize (s : Str) : Str :=
  pyStrip (collapseRuns (bracketSub (refSep (refStem s))))

/-- First-occurrence deduplication of the query list. -/
def dedupFirstAux (seen : List Str) : List Str → List Str
  | [] => []
  | n :: ns =>
    if n ∈ seen then dedupFirstAux seen ns else n :: dedupFirstAux (n :: seen) ns

def dedupFirst (l : List Str) : List Str := dedupFirstAux [] l

def hasCloser (l : Str) : Bool := l.any isCloseB

/-- A string with no bracketed span left: no opening bracket is followed by
any closing bracket. -/
def noSpanB : Str → Bool
  | [] => true
  | c :: cs => (if isOpenB c then !hasCloser cs else true) && noSpanB cs

def filterNotWs (l : Str) : Str := l.filter notWs

/-- Concrete scorer for the closed examples: 100 on equality, 0 otherwise. -/
def exScore (q c : Str) : Nat := if q = c then 100 else 0

def exSize (_ : Str) : Nat := 0

/-- Arguments with both the copy and the move flag set (claim C1). -/
def argsBoth : Args :=
  ⟨("names.txt").toList, false, some (("dest").toList), some (("dest2").toList), none, 50⟩

/-- A world with one readable name and one matching file. -/
def worldAb (ans : Str) : World :=
  ⟨some (("ab").toList), [("ab.txt").toList], ans, exScore, exSize⟩

def nStr : Str := ("n").toList

/-- Copy-only arguments (claims C2, C9). -/
def argsCopy : Args :=
  ⟨("names.txt").toList, false, some (("dest").toList), none, none, 50⟩

/-- Listing-mode arguments (claim C8). -/
def argsList : Args :=
  ⟨("names.txt").toList, true, none, none, some (("out.txt").toList), 50⟩

/-- Output flag set while the names file is missing (claim C10). -/
def argsOut : Args :=
  ⟨("names.txt").toList, false, none, none, some (("out.txt").toList), 50⟩

def worldNoNames : World := ⟨none, [], ("y").toList, exScore, exSize⟩

/-- A world whose names file exists but holds only blank lines. -/
def worldBlankNames : World := ⟨some (("  \n\n").toList), [], ("y").toList, exScore, exSize⟩

/-! ## Generic list facts -/

lemma lastOfAppend {α : Type} (l₁ l₂ : List α) (x : α) (h : l₂.getLast? = some x) :
    (l₁ ++ l₂).getLast? = some x := by
  rw [List.getLast?_append_of_ne_nil l₁]
  · exact h
  · intro hn
    subst hn
    simp at h

lemma catMap_map_left {α β γ : Type} (f : α → List β) (g : β → γ) (l : List α) :
    (catMap f l).map g = catMap (fun a => (f a).map g) l := by
  induction l with
  | nil => rfl
  | cons a l ih => simp [catMap, ih]

/-! ## Trace-phase lemmas -/

lemma transferOps_mem (b : Bool) (d : Str) (fs : List Str) (e : Effect)
    (h : e ∈ transferOps b d fs) : e.mutates = true := by
  unfold transferOps at h
  obtain ⟨f, _, rfl⟩ := List.mem_map.1 h
  cases b <;> simp [Effect.mutates]

lemma reportFx_transferSide (a : Args) (w : World) (rows : List (Str × Str × Nat)) :
    ∀ e ∈ reportFx a w rows, e.transferSide = false := by
  intro e he
  unfold reportFx at he
  split at he
  · obtain ⟨r, _, rfl⟩ := List.mem_map.1 he
    rfl
  · rcases List.mem_append.1 he with h | h
    · rcases List.mem_cons.1 h with rfl | h
      · rfl
      · obtain ⟨r, _, rfl⟩ := List.mem_map.1 h
        rfl
    · split at h
      · rcases List.mem_singleton.1 h with rfl
        rfl
      · simp at h

lemma mutates_of_transferSide {e : Effect} (h : e.transferSide = false) : e.mutates = false := by
  unfold Effect.transferSide at h
  exact (Bool.or_eq_false_iff.1 h).1

lemma reportFx_writtenLines_listing (a : Args) (w : World) (rows : List (Str × Str × Nat))
    (h : outputTruthy a.output = true) :
    writtenLines (reportFx a w rows) = rows.map (fun r => r.2.1) := by
  unfold reportFx writtenLines
  rw [if_pos h]
  induction rows with
  | nil => rfl
  | cons r rs ih => simpa using ih

lemma reportFx_noAggregate_listing (a : Args) (w : World) (rows : List (Str × Str × Nat))
    (h : outputTruthy a.output = true) :
    ∀ e ∈ reportFx a w rows, e.isAggregate = false := by
  intro e he
  unfold reportFx at he
  rw [if_pos h] at he
  obtain ⟨r, _, rfl⟩ := List.mem_map.1 he
  rfl

lemma transferFx_both (a : Args) (w : World) (names : List Str) (c m : Str)
    (hc : a.copy = some c) (hm : a.move = some m) :
    transferFx a w names = [Effect.printOut bothMsg, Effect.exitProg 1] := by
  unfold transferFx
  rw [hc, hm]

lemma transferOps_writtenLines (b : Bool) (d : Str) (fs : List Str) :
    writtenLines (transferOps b d fs) = [] := by
  unfold writtenLines transferOps
  induction fs with
  | nil => rfl
  | cons f fs ih => cases b <;> simpa using ih

lemma transferOps_noAgg (b : Bool) (d : Str) (fs : List Str) :
    ∀ e ∈ transferOps b d fs, e.isAggregate = false := by
  intro e he
  obtain ⟨f, _, rfl⟩ := List.mem_map.1 he
  cases b <;> rfl

lemma writtenLines_nil_of (t : List Effect) (h : ∀ e ∈ t, ∀ l, e ≠ Effect.writeOut l) :
    writtenLines t = [] := by
  induction t with
  | nil => rfl
  | cons e t ih =>
    have he := h e (by simp)
    have ht : writtenLines t = [] := ih (fun e2 he2 => h e2 (by simp [he2]))
    unfold writtenLines at ht ⊢
    cases e <;> first
      | exact (he _ rfl).elim
      | (rw [List.filterMap_cons]; simpa using ht)

lemma writtenLines_append (l₁ l₂ : List Effect) :
    writtenLines (l₁ ++ l₂) = writtenLines l₁ ++ writtenLines l₂ :=
  List.filterMap_append l₁ l₂ _

lemma transferFx_mem (a : Args) (w : World) (names : List Str) :
    ∀ e ∈ transferFx a w names, e.isAggregate = false ∧ ∀ l, e ≠ Effect.writeOut l := by
  have hbranch : ∀ (b : Bool) (d : Str) (e : Effect),
      e ∈ ([Effect.prompt b, Effect.printOut []] ++
          (if pyLower w.answer = yStr then
            Effect.mkdirParents d ::
              transferOps b d (filteredFiles w.score names w.dirFiles a.threshold)
          else [Effect.printOut cancelMsg])) ++ [Effect.exitProg 0] →
        e.isAggregate = false ∧ ∀ l, e ≠ Effect.writeOut l := by
    intro b d e he
    rcases List.mem_append.1 he with h1 | h1
    · rcases List.mem_append.1 h1 with h2 | h2
      · rcases List.mem_cons.1 h2 with rfl | h3
        · exact ⟨rfl, by simp⟩
        · rcases List.mem_singleton.1 h3 with rfl
          exact ⟨rfl, by simp⟩
      · split at h2
        · rcases List.mem_cons.1 h2 with rfl | h3
          · exact ⟨rfl, by simp⟩
          · obtain ⟨f, _, rfl⟩ := List.mem_map.1 h3
            cases b <;> exact ⟨rfl, by simp⟩
        · rcases List.mem_singleton.1 h2 with rfl
          exact ⟨rfl, by simp⟩
    · rcases List.mem_singleton.1 h1 with rfl
      exact ⟨rfl, by simp⟩
  intro e he
  unfold transferFx at he
  rcases hc : a.copy with _ | d <;> rcases hm : a.move with _ | d2 <;> rw [hc, hm] at he
  · rcases List.mem_singleton.1 he with rfl
    exact ⟨rfl, by simp⟩
  · exact hbranch false d2 e he
  · exact hbranch true d e he
  · rcases List.mem_cons.1 he with rfl | he
    · exact ⟨rfl, by simp⟩
    · rcases List.mem_singleton.1 he with rfl
      exact ⟨rfl, by simp⟩

lemma headerFx_mem (a : Args) (w : World) :
    ∀ e ∈ ((match a.output with
            | none => ([] : List Effect)
            | some p => if p = dashStr then [] else [Effect.openOutput p]) ++
          (Effect.readNamesFile a.names ::
            (match w.namesFile with
             | none => [Effect.printOut (errNotFound a.names)]
             | some _ => []))),
      e.transferSide = false ∧ e.isAggregate = false ∧ ∀ l, e ≠ Effect.writeOut l := by
  intro e he
  rcases List.mem_append.1 he with h | h
  · rcases ho : a.output with _ | p <;> rw [ho] at h
    · simp at h
    · have h2 : e ∈ (if p = dashStr then ([] : List Effect) else [Effect.openOutput p]) := h
      by_cases hd : p = dashStr
      · rw [if_pos hd] at h2
        simp at h2
      · rw [if_neg hd] at h2
        rcases List.mem_singleton.1 h2 with rfl
        exact ⟨rfl, rfl, by simp⟩
  · rcases List.mem_cons.1 h with rfl | h
    · exact ⟨rfl, rfl, by simp⟩
    · rcases hf : w.namesFile with _ | c <;> rw [hf] at h
      · have h2 : e ∈ [Effect.printOut (errNotFound a.names)] := h
        rcases List.mem_singleton.1 h2 with rfl
        exact ⟨rfl, rfl, by simp⟩
      · have h2 : e ∈ ([] : List Effect) := h
        simp at h2

lemma takeWhile_stop {α : Type} (p : α → Bool) (l₁ l₂ : List α) (a : α)
    (h1 : ∀ e ∈ l₁, p e = true) (h2 : p a = false) :
    (l₁ ++ a :: l₂).takeWhile p = l₁ := by
  induction l₁ with
  | nil => simp [List.takeWhile_cons, h2]
  | cons x l ih =>
    rw [List.cons_append, List.takeWhile_cons, h1 x (by simp)]
    rw [ih (fun e he => h1 e (by simp [he]))]
    simp

/-- Branch of the file-operations phase selected by exactly one transfer
flag, before the answer is inspected. -/
lemma transferFx_one (a : Args) (w : World) (names : List Str) (d : Str) (copying : Bool)
    (hmode : (a.copy = some d ∧ a.move = none ∧ copying = true) ∨
             (a.copy = none ∧ a.move = some d ∧ copying = false)) :
    transferFx a w names =
      ([Effect.prompt copying, Effect.printOut []] ++
        (if pyLower w.answer = yStr then
          Effect.mkdirParents d ::
            transferOps copying d (filteredFiles w.score names w.dirFiles a.threshold)
        else [Effect.printOut cancelMsg])) ++ [Effect.exitProg 0] := by
  rcases hmode with ⟨h1, h2, h3⟩ | ⟨h1, h2, h3⟩ <;> subst h3 <;> unfold transferFx <;>
    rw [h1, h2]

/-- Shared decomposition of the trace on a confirmed transfer: a prefix with
no disk mutation, then directory creation, the transfer loop, and normal
termination. -/
lemma mainTrace_confirm (a : Args) (w : World) (d : Str) (copying : Bool)
    (hmode : (a.copy = some d ∧ a.move = none ∧ copying = true) ∨
             (a.copy = none ∧ a.move = some d ∧ copying = false))
    (hnames : readNamesW w ≠ [])
    (hyes : pyLower w.answer = yStr) :
    mainTrace a w =
      ((mainTrace a w).takeWhile (fun e => !e.mutates)) ++
        (Effect.mkdirParents d ::
          transferOps copying d (filteredFiles w.score (readNamesW w) w.dirFiles a.threshold)) ++
        [Effect.exitProg 0] := by
  have hfx := transferFx_one a w (readNamesW w) d copying hmode
  rw [if_pos hyes] at hfx
  have htr : mainTrace a w =
      ((match a.output with
        | none => ([] : List Effect)
        | some p => if p = dashStr then [] else [Effect.openOutput p]) ++
        (Effect.readNamesFile a.names ::
          (match w.namesFile with
           | none => [Effect.printOut (errNotFound a.names)]
           | some _ => []))) ++
        (Effect.listDir ::
          (reportFx a w (rowsFor w.score (readNamesW w) w.dirFiles a.threshold) ++
            (([Effect.prompt copying, Effect.printOut []] ++
              (Effect.mkdirParents d ::
                transferOps copying d
                  (filteredFiles w.score (readNamesW w) w.dirFiles a.threshold))) ++
              [Effect.exitProg 0]))) := by
    unfold mainTrace
    rw [if_neg hnames, hfx]
  have hpre : mainTrace a w =
      (((match a.output with
        | none => ([] : List Effect)
        | some p => if p = dashStr then [] else [Effect.openOutput p]) ++
        (Effect.readNamesFile a.names ::
          (match w.namesFile with
           | none => [Effect.printOut (errNotFound a.names)]
           | some _ => []))) ++
        (Effect.listDir ::
          (reportFx a w (rowsFor w.score (readNamesW w) w.dirFiles a.threshold) ++
            [Effect.prompt copying, Effect.printOut []]))) ++
        (Effect.mkdirParents d ::
          (transferOps copying d (filteredFiles w.score (readNamesW w) w.dirFiles a.threshold) ++
            [Effect.exitProg 0])) := by
    rw [htr]
    simp only [List.append_assoc, List.cons_append, List.nil_append]
  have hmem : ∀ e ∈ (((match a.output with
        | none => ([] : List Effect)
        | some p => if p = dashStr then [] else [Effect.openOutput p]) ++
        (Effect.readNamesFile a.names ::
          (match w.namesFile with
           | none => [Effect.printOut (errNotFound a.names)]
           | some _ => []))) ++
        (Effect.listDir ::
          (reportFx a w (rowsFor w.score (readNamesW w) w.dirFiles a.threshold) ++
            [Effect.prompt copying, Effect.printOut []]))),
      (fun e => !e.mutates) e = true := by
    intro e he
    rcases List.mem_append.1 he with h | h
    · have := headerFx_mem a w e h
      simp [mutates_of_transferSide this.1]
    · rcases List.mem_cons.1 h with rfl | h
      · rfl
      · rcases List.mem_append.1 h with h | h
        · have := mutates_of_transferSide (reportFx_transferSide a w _ e h)
          simp [this]
        · rcases List.mem_cons.1 h with rfl | h
          · rfl
          · rcases List.mem_singleton.1 h with rfl
            rfl
  have htw : (mainTrace a w).takeWhile (fun e => !e.mutates) =
      (((match a.output with
        | none => ([] : List Effect)
        | some p => if p = dashStr then [] else [Effect.openOutput p]) ++
        (Effect.readNamesFile a.names ::
          (match w.namesFile with
           | none => [Effect.printOut (errNotFound a.names)]
           | some _ => []))) ++
        (Effect.listDir ::
          (reportFx a w (rowsFor w.score (readNamesW w) w.dirFiles a.threshold) ++
            [Effect.prompt copying, Effect.printOut []]))) := by
    conv =>
      lhs
      rw [hpre]
    exact takeWhile_stop _ _ _ _ hmem rfl
  rw [htw]
  conv =>
    lhs
    rw [hpre]
  simp only [List.append_assoc, List.cons_append, List.nil_append]

/-- Shared shape of the trace on a declined transfer: nothing on disk is
touched, the cancellation message is printed, termination is normal. -/
lemma mainTrace_cancel (a : Args) (w : World) (d : Str) (copying : Bool)
    (hmode : (a.copy = some d ∧ a.move = none ∧ copying = true) ∨
             (a.copy = none ∧ a.move = some d ∧ copying = false))
    (hnames : readNamesW w ≠ [])
    (hno : pyLower w.answer ≠ yStr) :
    (mainTrace a w).all (fun e => !e.mutates) = true ∧
      Effect.printOut cancelMsg ∈ mainTrace a w ∧
      (mainTrace a w).getLast? = some (Effect.exitProg 0) := by
  have hfx := transferFx_one a w (readNamesW w) d copying hmode
  rw [if_neg hno] at hfx
  have htr : mainTrace a w =
      ((match a.output with
        | none => ([] : List Effect)
        | some p => if p = dashStr then [] else [Effect.openOutput p]) ++
        (Effect.readNamesFile a.names ::
          (match w.namesFile with
           | none => [Effect.printOut (errNotFound a.names)]
           | some _ => []))) ++
        (Effect.listDir ::
          (reportFx a w (rowsFor w.score (readNamesW w) w.dirFiles a.threshold) ++
            (([Effect.prompt copying, Effect.printOut []] ++ [Effect.printOut cancelMsg]) ++
              [Effect.exitProg 0]))) := by
    unfold mainTrace
    rw [if_neg hnames, hfx]
  refine ⟨?_, ?_, ?_⟩
  · rw [List.all_eq_true]
    intro e he
    rw [htr] at he
    rcases List.mem_append.1 he with h | h
    · have := headerFx_mem a w e h
      simp [mutates_of_transferSide this.1]
    · rcases List.mem_cons.1 h with rfl | h
      · rfl
      · rcases List.mem_append.1 h with h | h
        · have := mutates_of_transferSide (reportFx_transferSide a w _ e h)
          simp [this]
        · rcases List.mem_append.1 h with h | h
          · rcases List.mem_append.1 h with h | h
            · rcases List.mem_cons.1 h with rfl | h
              · rfl
              · rcases List.mem_singleton.1 h with rfl
                rfl
            · rcases List.mem_singleton.1 h with rfl
              rfl
          · rcases List.mem_singleton.1 h with rfl
            rfl
  · rw [htr]
    refine List.mem_append.2 (Or.inr ?_)
    refine List.mem_cons.2 (Or.inr ?_)
    refine List.mem_append.2 (Or.inr ?_)
    refine List.mem_append.2 (Or.inl ?_)
    exact List.mem_append.2 (Or.inr (by simp))
  · rw [htr]
    apply lastOfAppend
    rw [← List.singleton_append]
    apply lastOfAppend
    apply lastOfAppend
    apply lastOfAppend
    rfl

lemma filteredFiles_eq_rows (score : Str → Str → Nat) (names files : List Str) (t : Nat) :
    filteredFiles score names files t = (rowsFor score names files t).map (fun r => r.2.1) := by
  unfold filteredFiles rowsFor
  rw [catMap_map_left]
  congr 1
  funext e
  by_cases h : e.2.2 < t
  · rw [if_pos h, if_neg (by omega)]
    rfl
  · rw [if_neg h, if_pos (by omega)]
    rw [List.map_map]
    exact (List.map_id' _).symm

/-! ## Claims on the trace -/

/-- Claim C1, counterexample: with both the copy and the move flag set, the
program does not abort before matching and I/O — the names file is read and
the report is printed (I/O effects occur) strictly before the non-zero
exit. -/
theorem conflictAbortsCounterexample :
    argsBoth.copy.isSome = true ∧ argsBoth.move.isSome = true ∧
      ((mainTrace argsBoth (worldAb yStr)).takeWhile (fun e => e ≠ Effect.exitProg 1)).any
        Effect.isIO = true := by
  decide

/-- Claim C1 (amended): if both the copy and the move flag are requested,
the program terminates with a non-zero exit as its final action, issues no
confirmation prompt, creates no directory and transfers no file — but the
abort happens after the names are read and the report is emitted, not
before matching and I/O. -/
theorem conflictAborts (a : Args) (w : World)
    (hc : a.copy.isSome = true) (hm : a.move.isSome = true) :
    (mainTrace a w).getLast? = some (Effect.exitProg 1) ∧
      (mainTrace a w).all (fun e => !e.transferSide) = true := by
  obtain ⟨c, hc2⟩ := Option.isSome_iff_exists.1 hc
  obtain ⟨m, hm2⟩ := Option.isSome_iff_exists.1 hm
  by_cases hn : readNamesW w = []
  · constructor
    · unfold mainTrace
      rw [if_pos hn]
      apply lastOfAppend
      rfl
    · rw [List.all_eq_true]
      intro e he
      unfold mainTrace at he
      rw [if_pos hn] at he
      rcases List.mem_append.1 he with h | h
      · have := headerFx_mem a w e h
        simp [this.1]
      · rcases List.mem_cons.1 h with rfl | h
        · rfl
        · rcases List.mem_singleton.1 h with rfl
          rfl
  · have hfx := transferFx_both a w (readNamesW w) c m hc2 hm2
    constructor
    · unfold mainTrace
      rw [if_neg hn, hfx]
      apply lastOfAppend
      rw [← List.singleton_append]
      apply lastOfAppend
      apply lastOfAppend
      rfl
    · rw [List.all_eq_true]
      intro e he
      unfold mainTrace at he
      rw [if_neg hn, hfx] at he
      rcases List.mem_append.1 he with h | h
      · have := headerFx_mem a w e h
        simp [this.1]
      · rcases List.mem_cons.1 h with rfl | h
        · rfl
        · rcases List.mem_append.1 h with h | h
          · have := reportFx_transferSide a w _ e h
            simp [this]
          · rcases List.mem_cons.1 h with rfl | h
            · rfl
            · rcases List.mem_singleton.1 h with rfl
              rfl

/-- Witness for C1 at a concrete run with both flags set. -/
theorem conflictAbortsWitness :
    (mainTrace argsBoth (worldAb yStr)).getLast? = some (Effect.exitProg 1) ∧
      (mainTrace argsBoth (worldAb yStr)).all (fun e => !e.transferSide) = true :=
  conflictAborts argsBoth (worldAb yStr) (by decide) (by decide)

/-- Claim C2, counterexample: the operator's answer "y" is not the word
"yes", yet the transfer proceeds and mutates the disk — so it is false that
every answer other than "yes" aborts with no side effects. -/
theorem confirmGateCounterexample :
    (worldAb yStr).answer ≠ ("yes").toList ∧
      (mainTrace argsCopy (worldAb yStr)).any Effect.mutates = true := by
  decide

/-- Claim C2 (amended): when exactly one transfer flag is set, any answer
whose lowercasing differs from "y" cancels the transfer — no directory is
created, nothing is copied or moved, the cancellation message is printed and
the run ends normally; when the lowercased answer is "y", the trace is a
mutation-free prefix followed by destination-directory creation and the
transfer loop. -/
theorem confirmGate (a : Args) (w : World) (d : Str) (copying : Bool)
    (hmode : (a.copy = some d ∧ a.move = none ∧ copying = true) ∨
             (a.copy = none ∧ a.move = some d ∧ copying = false))
    (hnames : readNamesW w ≠ []) :
    (pyLower w.answer ≠ yStr →
      (mainTrace a w).all (fun e => !e.mutates) = true ∧
        Effect.printOut cancelMsg ∈ mainTrace a w ∧
        (mainTrace a w).getLast? = some (Effect.exitProg 0)) ∧
    (pyLower w.answer = yStr →
      mainTrace a w =
        ((mainTrace a w).takeWhile (fun e => !e.mutates)) ++
          (Effect.mkdirParents d ::
            transferOps copying d
              (filteredFiles w.score (readNamesW w) w.dirFiles a.threshold)) ++
          [Effect.exitProg 0]) :=
  ⟨fun hno => mainTrace_cancel a w d copying hmode hnames hno,
   fun hyes => mainTrace_confirm a w d copying hmode hnames hyes⟩

/-- Witness for C2 at a concrete declined run. -/
theorem confirmGateWitness :
    (pyLower (worldAb nStr).answer ≠ yStr →
      (mainTrace argsCopy (worldAb nStr)).all (fun e => !e.mutates) = true ∧
        Effect.printOut cancelMsg ∈ mainTrace argsCopy (worldAb nStr) ∧
        (mainTrace argsCopy (worldAb nStr)).getLast? = some (Effect.exitProg 0)) ∧
    (pyLower (worldAb nStr).answer = yStr →
      mainTrace argsCopy (worldAb nStr) =
        ((mainTrace argsCopy (worldAb nStr)).takeWhile (fun e => !e.mutates)) ++
          (Effect.mkdirParents (("dest").toList) ::
            transferOps true (("dest").toList)
              (filteredFiles (worldAb nStr).score (readNamesW (worldAb nStr))
                (worldAb nStr).dirFiles argsCopy.threshold)) ++
          [Effect.exitProg 0]) :=
  confirmGate argsCopy (worldAb nStr) (("dest").toList) true
    (Or.inl ⟨rfl, rfl, rfl⟩) (by decide)

/-- Claim C8: in listing mode the program writes exactly the kept rows'
original paths, one per line and in order, and emits no header, no table
row and no disk-space total, whatever the space flag. -/
theorem listingMode (a : Args) (w : World) (p : Str)
    (ho : a.output = some p) (hp : p ≠ []) (hnames : readNamesW w ≠ []) :
    writtenLines (mainTrace a w) =
      (rowsFor w.score (readNamesW w) w.dirFiles a.threshold).map (fun r => r.2.1) ∧
      (mainTrace a w).all (fun e => !e.isAggregate) = true := by
  have htruthy : outputTruthy a.output = true := by
    rw [ho]
    unfold outputTruthy
    cases p
    · exact absurd rfl hp
    · rfl
  constructor
  · unfold mainTrace
    rw [if_neg hnames]
    rw [writtenLines_append]
    rw [writtenLines_nil_of _ (fun e he => (headerFx_mem a w e he).2.2)]
    rw [← List.singleton_append, writtenLines_append, writtenLines_append]
    rw [reportFx_writtenLines_listing a w _ htruthy]
    rw [writtenLines_nil_of _ (fun e he => (transferFx_mem a w _ e he).2)]
    rw [show writtenLines [Effect.listDir] = [] from rfl]
    simp
  · rw [List.all_eq_true]
    intro e he
    unfold mainTrace at he
    rw [if_neg hnames] at he
    rcases List.mem_append.1 he with h | h
    · have := headerFx_mem a w e h
      simp [this.2.1]
    · rcases List.mem_cons.1 h with rfl | h
      · rfl
      · rcases List.mem_append.1 h with h | h
        · have := reportFx_noAggregate_listing a w _ htruthy e h
          simp [this]
        · have := (transferFx_mem a w _ e h).1
          simp [this]

/-- Witness for C8 at a concrete listing run with the space flag set. -/
theorem listingModeWitness :
    writtenLines (mainTrace argsList (worldAb yStr)) =
      (rowsFor (worldAb yStr).score (readNamesW (worldAb yStr)) (worldAb yStr).dirFiles
        argsList.threshold).map (fun r => r.2.1) ∧
      (mainTrace argsList (worldAb yStr)).all (fun e => !e.isAggregate) = true :=
  listingMode argsList (worldAb yStr) (("out.txt").toList) rfl (by decide) (by decide)

/-- Claim C9: the files transferred after confirmation are exactly the kept
rows' original paths, in the same order and without deduplication, each sent
to the destination directory joined with its base name. -/
theorem transferredEqualsKept (a : Args) (w : World) (d : Str) (copying : Bool)
    (hmode : (a.copy = some d ∧ a.move = none ∧ copying = true) ∨
             (a.copy = none ∧ a.move = some d ∧ copying = false))
    (hnames : readNamesW w ≠ []) (hyes : pyLower w.answer = yStr) :
    filteredFiles w.score (readNamesW w) w.dirFiles a.threshold =
      (rowsFor w.score (readNamesW w) w.dirFiles a.threshold).map (fun r => r.2.1) ∧
    mainTrace a w =
      ((mainTrace a w).takeWhile (fun e => !e.mutates)) ++
        (Effect.mkdirParents d ::
          ((rowsFor w.score (readNamesW w) w.dirFiles a.threshold).map (fun r => r.2.1)).map
            (fun f =>
              if copying then Effect.copyFile f (pathJoin d (baseName f))
              else Effect.moveFile f (pathJoin d (baseName f)))) ++
        [Effect.exitProg 0] := by
  refine ⟨filteredFiles_eq_rows _ _ _ _, ?_⟩
  have h := mainTrace_confirm a w d copying hmode hnames hyes
  rw [filteredFiles_eq_rows] at h
  exact h

/-- Witness for C9 at a concrete confirmed copy. -/
theorem transferredEqualsKeptWitness :
    filteredFiles (worldAb yStr).score (readNamesW (worldAb yStr)) (worldAb yStr).dirFiles
        argsCopy.threshold =
      (rowsFor (worldAb yStr).score (readNamesW (worldAb yStr)) (worldAb yStr).dirFiles
        argsCopy.threshold).map (fun r => r.2.1) ∧
    mainTrace argsCopy (worldAb yStr) =
      ((mainTrace argsCopy (worldAb yStr)).takeWhile (fun e => !e.mutates)) ++
        (Effect.mkdirParents (("dest").toList) ::
          ((rowsFor (worldAb yStr).score (readNamesW (worldAb yStr)) (worldAb yStr).dirFiles
            argsCopy.threshold).map (fun r => r.2.1)).map
            (fun f =>
              if true then Effect.copyFile f (pathJoin (("dest").toList) (baseName f))
              else Effect.moveFile f (pathJoin (("dest").toList) (baseName f)))) ++
        [Effect.exitProg 0] :=
  transferredEqualsKept argsCopy (worldAb yStr) (("dest").toList) true
    (Or.inl ⟨rfl, rfl, rfl⟩) (by decide) (by decide)

/-- Claim C10: with an output file requested, the file is opened (created or
truncated) before the names file is read and validated, so a run that dies
because the names are missing or empty has already opened the output
target. -/
theorem outputOpenedFirst (a : Args) (w : World) (p : Str)
    (ho : a.output = some p) (hd : p ≠ dashStr) (hn : readNamesW w = []) :
    mainTrace a w =
      Effect.openOutput p :: Effect.readNamesFile a.names ::
        ((match w.namesFile with
          | none => [Effect.printOut (errNotFound a.names)]
          | some _ => []) ++ [Effect.printErr noNamesMsg, Effect.exitProg 1]) := by
  unfold mainTrace
  rw [ho, if_pos hn]
  have hred : (match some p with
      | none => ([] : List Effect)
      | some q => if q = dashStr then [] else [Effect.openOutput q]) = [Effect.openOutput p] := by
    show (if p = dashStr then ([] : List Effect) else [Effect.openOutput p]) = _
    rw [if_neg hd]
  rw [hred]
  simp [List.cons_append, List.append_assoc]

/-- Witness for C10: missing names file with the output flag set. -/
theorem outputOpenedFirstWitness :
    mainTrace argsOut worldNoNames =
      Effect.openOutput (("out.txt").toList) ::
        Effect.readNamesFile (("names.txt").toList) ::
          ([Effect.printOut (errNotFound (("names.txt").toList))] ++
            [Effect.printErr noNamesMsg, Effect.exitProg 1]) :=
  outputOpenedFirst argsOut worldNoNames (("out.txt").toList) rfl (by decide) (by decide)

/-! ## Dict and matcher lemmas -/

lemma mem_dictInsert (k : Str) (v : Str × Nat) (d : List (Str × Str × Nat)) (e : Str × Str × Nat)
    (h : e ∈ dictInsert k v d) : e = (k, v.1, v.2) ∨ e ∈ d := by
  induction d with
  | nil =>
    rcases List.mem_singleton.1 h with rfl
    exact Or.inl rfl
  | cons a rest ih =>
    obtain ⟨k2, w⟩ := a
    unfold dictInsert at h
    split at h
    · rcases List.mem_cons.1 h with rfl | h
      · next heq => exact Or.inl (by rw [heq])
      · exact Or.inr (List.mem_cons.2 (Or.inr h))
    · rcases List.mem_cons.1 h with rfl | h
      · exact Or.inr (List.mem_cons.2 (Or.inl rfl))
      · rcases ih h with h2 | h2
        · exact Or.inl h2
        · exact Or.inr (List.mem_cons.2 (Or.inr h2))

lemma dictInsert_keys (k : Str) (v : Str × Nat) (d : List (Str × Str × Nat)) :
    (dictInsert k v d).map (fun e => e.1) =
      if k ∈ d.map (fun e => e.1) then d.map (fun e => e.1)
      else d.map (fun e => e.1) ++ [k] := by
  induction d with
  | nil => simp [dictInsert]
  | cons a rest ih =>
    obtain ⟨k2, w⟩ := a
    unfold dictInsert
    split
    · next heq =>
      subst heq
      simp
    · next hne =>
      by_cases hk : k ∈ rest.map (fun e => e.1)
      · rw [if_pos (by simp [hk])]
        simp only [List.map_cons]
        rw [ih, if_pos hk]
      · rw [if_neg (by simp [hk]; exact fun h => hne h.symm)]
        simp only [List.map_cons]
        rw [ih, if_neg hk]
        simp

lemma dictInsert_idem (k : Str) (v : Str × Nat) (d : List (Str × Str × Nat)) :
    dictInsert k v (dictInsert k v d) = dictInsert k v d := by
  induction d with
  | nil => simp [dictInsert]
  | cons a rest ih =>
    obtain ⟨k2, w⟩ := a
    by_cases h2 : k2 = k
    · subst h2
      simp [dictInsert]
    · simp [dictInsert, h2, ih]

lemma dictInsert_absorb_comm (m n : Str) (kv kv2 : Str × Nat) (d : List (Str × Str × Nat))
    (hne : m ≠ n) (h : dictInsert m kv d = d) :
    dictInsert m kv (dictInsert n kv2 d) = dictInsert n kv2 d := by
  induction d with
  | nil => simp [dictInsert] at h
  | cons a rest ih =>
    obtain ⟨k2, w⟩ := a
    by_cases h2 : k2 = n
    · subst h2
      rw [show dictInsert k2 kv2 ((k2, w) :: rest) = (k2, kv2.1, kv2.2) :: rest by
        simp [dictInsert]]
      have hm : k2 ≠ m := fun hh => hne (hh ▸ rfl)
      rw [show dictInsert m kv ((k2, kv2.1, kv2.2) :: rest) =
          (k2, kv2.1, kv2.2) :: dictInsert m kv rest by
        simp [dictInsert, hm]]
      rw [show dictInsert m kv ((k2, w) :: rest) = (k2, w) :: dictInsert m kv rest by
          simp [dictInsert, hm]] at h
      rw [List.cons.injEq] at h
      rw [h.2]
    · rw [show dictInsert n kv2 ((k2, w) :: rest) = (k2, w) :: dictInsert n kv2 rest by
        simp [dictInsert, h2]]
      by_cases h3 : k2 = m
      · subst h3
        rw [show dictInsert k2 kv ((k2, w) :: rest) = (k2, kv.1, kv.2) :: rest by
            simp [dictInsert]] at h
        rw [List.cons.injEq] at h
        rw [show dictInsert k2 kv ((k2, w) :: dictInsert n kv2 rest) =
          (k2, kv.1, kv.2) :: dictInsert n kv2 rest by simp [dictInsert]]
        rw [h.1]
      · rw [show dictInsert m kv ((k2, w) :: rest) = (k2, w) :: dictInsert m kv rest by
            simp [dictInsert, h3]] at h
        rw [List.cons.injEq] at h
        rw [show dictInsert m kv ((k2, w) :: dictInsert n kv2 rest) =
          (k2, w) :: dictInsert m kv (dictInsert n kv2 rest) by simp [dictInsert, h3]]
        rw [ih h.2]

lemma dedupFirstAux_congr (s s2 : List Str) (l : List Str)
    (h : ∀ x, x ∈ s ↔ x ∈ s2) : dedupFirstAux s l = dedupFirstAux s2 l := by
  induction l generalizing s s2 with
  | nil => rfl
  | cons n ns ih =>
    unfold dedupFirstAux
    by_cases hn : n ∈ s
    · rw [if_pos hn, if_pos ((h n).1 hn)]
      exact ih s s2 h
    · rw [if_neg hn, if_neg (fun hh => hn ((h n).2 hh))]
      rw [ih (n :: s) (n :: s2) (fun x => by
        simp only [List.mem_cons]
        exact or_congr Iff.rfl (h x))]

lemma dedupFirstAux_nodup (l : List Str) : ∀ s : List Str,
    (dedupFirstAux s l).Nodup ∧ ∀ x ∈ dedupFirstAux s l, x ∉ s := by
  induction l with
  | nil => exact fun s => ⟨List.nodup_nil, by simp [dedupFirstAux]⟩
  | cons n ns ih =>
    intro s
    unfold dedupFirstAux
    by_cases hn : n ∈ s
    · rw [if_pos hn]
      exact ih s
    · rw [if_neg hn]
      obtain ⟨hnd, hout⟩ := ih (n :: s)
      refine ⟨List.nodup_cons.2 ⟨fun hmem => (hout n hmem) (by simp), hnd⟩, ?_⟩
      intro x hx
      rcases List.mem_cons.1 hx with rfl | hx
      · exact hn
      · exact fun hs => (hout x hx) (by simp [hs])

lemma extractOne_mem (score : Str → Str → Nat) (q : Str) (choices : List Str)
    (kv : Str × Nat) (h : extractOne score q choices = some kv) : kv.1 ∈ choices := by
  have main : ∀ (cs : List Str) (b : Str × Nat),
      (cs.foldl (fun best x => if score q x > best.2 then (x, score q x) else best) b).1 = b.1 ∨
      (cs.foldl (fun best x => if score q x > best.2 then (x, score q x) else best) b).1 ∈ cs := by
    intro cs
    induction cs with
    | nil => exact fun b => Or.inl rfl
    | cons x cs ih =>
      intro b
      simp only [List.foldl_cons]
      rcases ih (if score q x > b.2 then (x, score q x) else b) with h2 | h2
      · rw [h2]
        by_cases hx : score q x > b.2
        · rw [if_pos hx]
          exact Or.inr (by simp)
        · rw [if_neg hx]
          exact Or.inl rfl
      · exact Or.inr (List.mem_cons.2 (Or.inr h2))
  cases choices with
  | nil => simp [extractOne] at h
  | cons c cs =>
    unfold extractOne at h
    rw [Option.some.injEq] at h
    rcases main cs (c, score q c) with h2 | h2
    · rw [h] at h2
      exact List.mem_cons.2 (Or.inl h2)
    · rw [h] at h2
      exact List.mem_cons.2 (Or.inr h2)

lemma foldMatch_entries (score : Str → Str → Nat) (fs : List Str) :
    ∀ (names : List Str) (d : List (Str × Str × Nat)),
      (∀ e ∈ d, extractOne score e.1 fs = some (e.2.1, e.2.2)) →
      ∀ e ∈ names.foldl (fun m name =>
          match extractOne score name fs with
          | some kv => dictInsert name kv m
          | none => m) d,
        extractOne score e.1 fs = some (e.2.1, e.2.2) := by
  intro names
  induction names with
  | nil => exact fun d hd => hd
  | cons n ns ih =>
    intro d hd
    simp only [List.foldl_cons]
    rcases hx : extractOne score n fs with _ | kv
    · exact ih d hd
    · refine ih (dictInsert n kv d) ?_
      intro e he
      rcases mem_dictInsert n kv d e he with rfl | he2
      · simpa using hx
      · exact hd e he2

/-- Every entry of the match dict records the best match of its own query. -/
lemma fileMatching_entry (score : Str → Str → Nat) (names fs : List Str)
    (n k : Str) (sc : Nat) (h : (n, k, sc) ∈ fileMatching score names fs) :
    extractOne score n fs = some (k, sc) := by
  have := foldMatch_entries score fs names [] (by simp) (n, k, sc) h
  simpa using this

lemma foldMatch_keys (score : Str → Str → Nat) (fs : List Str) :
    ∀ (names : List Str) (d : List (Str × Str × Nat)),
      (names.foldl (fun m name =>
          match extractOne score name fs with
          | some kv => dictInsert name kv m
          | none => m) d).map (fun e => e.1) =
        d.map (fun e => e.1) ++
          dedupFirstAux (d.map (fun e => e.1))
            (names.filter (fun n => (extractOne score n fs).isSome)) := by
  intro names
  induction names with
  | nil => simp [dedupFirstAux]
  | cons n ns ih =>
    intro d
    simp only [List.foldl_cons, List.filter_cons]
    rcases hx : extractOne score n fs with _ | kv
    · simp only [hx, Option.isSome_none, Bool.false_eq_true, if_false]
      exact ih d
    · simp only [hx, Option.isSome_some, if_true]
      unfold dedupFirstAux
      by_cases hn : n ∈ d.map (fun e => e.1)
      · rw [if_pos hn]
        rw [ih (dictInsert n kv d)]
        rw [dictInsert_keys, if_pos hn]
      · rw [if_neg hn]
        rw [ih (dictInsert n kv d)]
        rw [dictInsert_keys, if_neg hn]
        rw [List.append_assoc, List.singleton_append]
        congr 1
        congr 1
        exact dedupFirstAux_congr _ _ _ (fun x => by simp [or_comm])

/-- The query keys of the match dict are the matched names in first-occurrence
order, duplicates collapsed. -/
lemma fileMatching_keys (score : Str → Str → Nat) (names fs : List Str) :
    (fileMatching score names fs).map (fun e => e.1) =
      dedupFirst (names.filter (fun n => (extractOne score n fs).isSome)) := by
  have := foldMatch_keys score fs names []
  simpa [fileMatching, dedupFirst] using this

lemma fileMatching_keys_nodup (score : Str → Str → Nat) (names fs : List Str) :
    ((fileMatching score names fs).map (fun e => e.1)).Nodup := by
  rw [fileMatching_keys]
  exact (dedupFirstAux_nodup _ []).1

lemma foldMatch_dedup (score : Str → Str → Nat) (fs : List Str) :
    ∀ (names : List Str) (d : List (Str × Str × Nat)) (seen : List Str),
      (∀ n ∈ seen, (match extractOne score n fs with
        | some kv => dictInsert n kv d
        | none => d) = d) →
      names.foldl (fun m name =>
          match extractOne score name fs with
          | some kv => dictInsert name kv m
          | none => m) d =
        (dedupFirstAux seen names).foldl (fun m name =>
          match extractOne score name fs with
          | some kv => dictInsert name kv m
          | none => m) d := by
  intro names
  induction names with
  | nil => intro d seen _; rfl
  | cons n ns ih =>
    intro d seen hinv
    unfold dedupFirstAux
    by_cases hn : n ∈ seen
    · rw [if_pos hn]
      simp only [List.foldl_cons]
      rw [show (match extractOne score n fs with
          | some kv => dictInsert n kv d
          | none => d) = d from hinv n hn]
      exact ih d seen hinv
    · rw [if_neg hn]
      simp only [List.foldl_cons]
      rcases hx3 : extractOne score n fs with _ | kv3 <;> simp only [hx3]
      · refine ih d (n :: seen) ?_
        intro m hm
        rcases List.mem_cons.1 hm with rfl | hm2
        · simp [hx3]
        · exact hinv m hm2
      · refine ih (dictInsert n kv3 d) (n :: seen) ?_
        intro m hm
        rcases List.mem_cons.1 hm with rfl | hm2
        · rw [hx3]
          exact dictInsert_idem m kv3 d
        · have habs := hinv m hm2
          have hmn : m ≠ n := fun hh => hn (hh ▸ hm2)
          rcases hx : extractOne score m fs with _ | kv
          · rfl
          · rw [hx] at habs
            exact dictInsert_absorb_comm m n kv kv3 d hmn habs

/-- The match dict ignores duplicate occurrences of a query name. -/
lemma fileMatching_dedup (score : Str → Str → Nat) (names fs : List Str) :
    fileMatching score names fs = fileMatching score (dedupFirst names) fs := by
  unfold fileMatching dedupFirst
  exact foldMatch_dedup score fs names [] [] (by simp)

/-! ## Resolver lemmas -/

lemma dictGet_groupInsert_same (k : Str) (v : Str) (d : List (Str × List Str)) :
    dictGet (groupInsert k v d) k = some ((dictGet d k).getD [] ++ [v]) := by
  induction d with
  | nil => simp [groupInsert, dictGet]
  | cons a rest ih =>
    obtain ⟨k2, vs⟩ := a
    by_cases h2 : k2 = k
    · subst h2
      simp [groupInsert, dictGet, List.find?]
    · unfold groupInsert
      rw [if_neg h2]
      unfold dictGet at ih ⊢
      simp only [List.find?]
      rw [show (decide ((k2, vs).1 = k)) = false from by simp [h2]]
      exact ih

lemma dictGet_groupInsert_other (k k2 : Str) (v : Str) (d : List (Str × List Str))
    (h : k2 ≠ k) : dictGet (groupInsert k2 v d) k = dictGet d k := by
  induction d with
  | nil => simp [groupInsert, dictGet, List.find?, h]
  | cons a rest ih =>
    obtain ⟨k3, vs⟩ := a
    by_cases h3 : k3 = k2
    · subst h3
      unfold groupInsert
      rw [if_pos rfl]
      unfold dictGet
      simp only [List.find?]
      rw [show (decide ((k3, vs ++ [v]).1 = k)) = false from by simp [h]]
    · unfold groupInsert
      rw [if_neg h3]
      unfold dictGet at ih ⊢
      simp only [List.find?]
      cases hdec : decide ((k3, vs).1 = k)
      · exact ih
      · rfl

lemma dictGet_foldIns (k : Str) :
    ∀ (ps : List (Str × Str)) (d : List (Str × List Str)),
      dictGet (ps.foldl (fun d p => groupInsert p.1 p.2 d) d) k =
        if (dictGet d k).isSome ∨ k ∈ ps.map (fun p => p.1) then
          some ((dictGet d k).getD [] ++
            (ps.filter (fun p => decide (p.1 = k))).map (fun p => p.2))
        else none := by
  intro ps
  induction ps with
  | nil =>
    intro d
    simp only [List.foldl_nil, List.map_nil, List.not_mem_nil, or_false, List.filter_nil,
      List.map_nil, List.append_nil]
    rcases hd : dictGet d k with _ | g
    · simp
    · simp
  | cons p ps ih =>
    intro d
    obtain ⟨pk, pv⟩ := p
    simp only [List.foldl_cons, List.map_cons, List.filter_cons]
    by_cases hpk : pk = k
    · subst hpk
      rw [ih (groupInsert pk pv d)]
      rw [dictGet_groupInsert_same]
      simp only [Option.isSome_some, true_or, if_true, Option.getD_some]
      rw [if_pos (by simp)]
      simp
    · rw [ih (groupInsert pk pv d)]
      rw [dictGet_groupInsert_other k pk pv d hpk]
      rw [show (decide ((pk, pv).1 = k)) = false from by simp [hpk]]
      simp only [Bool.false_eq_true, if_false]
      have hcond : ((dictGet d k).isSome = true ∨ k ∈ ps.map (fun p => p.1)) ↔
          ((dictGet d k).isSome = true ∨ k ∈ (pk, pv).1 :: ps.map (fun p => p.1)) := by
        simp only [List.mem_cons]
        constructor
        · rintro (h | h)
          · exact Or.inl h
          · exact Or.inr (Or.inr h)
        · rintro (h | h | h)
          · exact Or.inl h
          · exact absurd h.symm hpk
          · exact Or.inr h
      rw [if_congr hcond rfl rfl]

lemma zip_preprocessing (files : List Str) :
    (preprocessing files).zip files = files.map (fun f => (preprocessOne f, f)) := by
  induction files with
  | nil => rfl
  | cons f fs ih => simp [preprocessing, List.zip] at ih ⊢; exact ih

/-- The key groups are exactly the fibres of the normaliser over the
directory listing, in listing order; a key is present iff some file cleans
to it. -/
lemma dictGet_buildMapOrig (files : List Str) (k : Str) :
    dictGet (buildMapOrig files) k =
      if k ∈ preprocessing files then
        some (files.filter (fun f => decide (preprocessOne f = k)))
      else none := by
  unfold buildMapOrig
  rw [zip_preprocessing, dictGet_foldIns]
  simp only [dictGet, List.find?_nil, Option.map_none', Option.isSome_none,
    Bool.false_eq_true, false_or, Option.getD_none, List.nil_append]
  rw [show (files.map (fun f => (preprocessOne f, f))).map (fun p => p.1) =
      preprocessing files from by simp [preprocessing]]
  by_cases hk : k ∈ preprocessing files
  · rw [if_pos hk, if_pos hk]
    rw [List.filter_map, List.map_map]
    rw [Option.some.injEq]
    exact List.map_id' _
  · rw [if_neg hk, if_neg hk]

/-! ## catMap lemmas -/

lemma catMap_filter {α β : Type} (f : α → List β) (p : β → Bool) (l : List α) :
    (catMap f l).filter p = catMap (fun a => (f a).filter p) l := by
  induction l with
  | nil => rfl
  | cons a l ih => simp [catMap, List.filter_append, ih]

lemma catMap_nil_of {α β : Type} (f : α → List β) (l : List α)
    (h : ∀ a ∈ l, f a = []) : catMap f l = [] := by
  induction l with
  | nil => rfl
  | cons a l ih =>
    unfold catMap
    rw [h a (by simp), ih (fun a ha => h a (by simp [ha]))]
    rfl

lemma mem_catMap {α β : Type} (f : α → List β) (l : List α) (x : β) :
    x ∈ catMap f l ↔ ∃ a ∈ l, x ∈ f a := by
  induction l with
  | nil => simp [catMap]
  | cons a l ih =>
    unfold catMap
    rw [List.mem_append, ih]
    constructor
    · rintro (h | ⟨b, hb, hx⟩)
      · exact ⟨a, by simp, h⟩
      · exact ⟨b, by simp [hb], hx⟩
    · rintro ⟨b, hb, hx⟩
      rcases List.mem_cons.1 hb with rfl | hb
      · exact Or.inl hx
      · exact Or.inr ⟨b, hb, hx⟩

lemma catMap_single_key {β : Type} (f : Str × Str × Nat → List β)
    (bm : List (Str × Str × Nat)) (e0 : Str × Str × Nat) (hmem : e0 ∈ bm)
    (hnd : List.Pairwise (fun a b => a.1 ≠ b.1) bm) :
    catMap (fun e => if e.1 = e0.1 then f e else []) bm = f e0 := by
  induction bm with
  | nil => simp at hmem
  | cons a l ih =>
    rw [List.pairwise_cons] at hnd
    unfold catMap
    rcases List.mem_cons.1 hmem with rfl | hmem2
    · rw [if_pos rfl]
      rw [catMap_nil_of _ _ (fun b hb => by
        rw [if_neg]
        exact fun hh => (hnd.1 b hb) hh.symm)]
      simp
    · rw [if_neg (fun hh => (hnd.1 e0 hmem2) hh)]
      rw [List.nil_append]
      exact ih hmem2 hnd.2

lemma length_filter_mono {α : Type} (p q : α → Bool) (l : List α)
    (h : ∀ x, p x = true → q x = true) :
    (l.filter p).length ≤ (l.filter q).length := by
  induction l with
  | nil => simp
  | cons x l ih =>
    simp only [List.filter_cons]
    cases hp : p x
    · cases hq : q x
      · exact ih
      · exact le_trans ih (by simp)
    · rw [h x hp]
      simpa using ih

lemma rowsFor_eq_filter (score : Str → Str → Nat) (names files : List Str) (t : Nat) :
    rowsFor score names files t =
      (rowsFor score names files 0).filter (fun r => decide (t ≤ r.2.2)) := by
  unfold rowsFor
  rw [catMap_filter]
  congr 1
  funext e
  rw [if_neg (Nat.not_lt_zero _)]
  rw [List.filter_map]
  by_cases h : e.2.2 < t
  · rw [if_pos h]
    have : List.filter ((fun r => decide (t ≤ r.2.2)) ∘
        (fun orig : Str => (e.1, orig, pyRound e.2.2)))
        ((dictGet (buildMapOrig files) e.2.1).getD []) = [] := by
      rw [List.filter_eq_nil_iff]
      intro a _
      simp only [Function.comp]
      simpa [pyRound] using h
    rw [this]
    rfl
  · rw [if_neg h]
    congr 1
    symm
    rw [List.filter_eq_self]
    intro a _
    simp only [Function.comp]
    simpa [pyRound] using h

lemma catMap_pairwise {α β : Type} (R : β → β → Prop) (f : α → List β) (l : List α)
    (hwithin : ∀ a ∈ l, ∀ x ∈ f a, ∀ y ∈ f a, R x y)
    (hacross : List.Pairwise (fun a b => ∀ x ∈ f a, ∀ y ∈ f b, R x y) l) :
    List.Pairwise R (catMap f l) := by
  induction l with
  | nil => exact List.Pairwise.nil
  | cons a l ih =>
    rw [List.pairwise_cons] at hacross
    unfold catMap
    rw [List.pairwise_append]
    refine ⟨?_, ?_, ?_⟩
    · exact List.pairwise_iff_forall_sublist.2 (fun {x y} hs => by
        have hx := hs.subset
        exact hwithin a (by simp) x (hx (by simp)) y (hx (by simp)))
    · exact ih (fun b hb => hwithin b (by simp [hb])) hacross.2
    · intro x hx y hy
      obtain ⟨b, hb, hyb⟩ := (mem_catMap f l y).1 hy
      exact hacross.1 b hb x hx y hyb

lemma rows_entry_shape (files : List Str) (t : Nat) (e : Str × Str × Nat)
    (r : Str × Str × Nat)
    (hr : r ∈ (if e.2.2 < t then []
      else ((dictGet (buildMapOrig files) e.2.1).getD []).map
        (fun orig => (e.1, orig, pyRound e.2.2)))) :
    r.1 = e.1 ∧ r.2.2 = pyRound e.2.2 := by
  split at hr
  · simp at hr
  · obtain ⟨o, _, rfl⟩ := List.mem_map.1 hr
    exact ⟨rfl, rfl⟩

/-! ## Claims C3, C6, C7 -/

/-- Claim C3, counterexample: a names file holding the same name twice
yields a single resolved row, not one row set per occurrence — the match
dict is keyed by the name, so duplicates collapse. -/
theorem duplicateQueriesCounterexample :
    rowsFor exScore [("ab").toList, ("ab").toList] [("ab.txt").toList] 50 =
      [(("ab").toList, ("ab.txt").toList, 100)] ∧
    (rowsFor exScore [("ab").toList, ("ab").toList] [("ab.txt").toList] 50).length ≠ 2 := by
  decide

/-- Claim C3 (amended): queries form an ordered sequence and the order of
first occurrences is preserved, but duplicate query names collapse: the
resolved rows equal those of the name list with later duplicates removed,
and the match dict's keys are exactly the matched names in first-occurrence
order. -/
theorem duplicateQueriesCollapse (score : Str → Str → Nat) (names files : List Str) (t : Nat) :
    rowsFor score names files t = rowsFor score (dedupFirst names) files t ∧
    (fileMatching score names (preprocessing files)).map (fun e => e.1) =
      dedupFirst (names.filter
        (fun n => (extractOne score n (preprocessing files)).isSome)) := by
  constructor
  · unfold rowsFor
    rw [fileMatching_dedup]
  · exact fileMatching_keys score names (preprocessing files)

/-- Claim C6: every matched key is drawn from the candidate key set, so the
unguarded `map_orig[cleaned_fn]` lookup always succeeds with a non-empty
group, and the rows a match contributes are exactly one per original path of
its group, in group order. -/
theorem lookupSafe (score : Str → Str → Nat) (names files : List Str) (t : Nat)
    (n k : Str) (sc : Nat)
    (h : (n, k, sc) ∈ fileMatching score names (preprocessing files)) :
    k ∈ preprocessing files ∧
    (dictGet (buildMapOrig files) k).isSome = true ∧
    (dictGet (buildMapOrig files) k).getD [] ≠ [] ∧
    (rowsFor score names files t).filter (fun r => decide (r.1 = n)) =
      (if sc < t then []
       else ((dictGet (buildMapOrig files) k).getD []).map
         (fun orig => (n, orig, pyRound sc))) := by
  have hext := fileMatching_entry score names (preprocessing files) n k sc h
  have hkmem : k ∈ preprocessing files := by
    have := extractOne_mem score n (preprocessing files) (k, sc) hext
    simpa using this
  have hget := dictGet_buildMapOrig files k
  rw [if_pos hkmem] at hget
  have hne : files.filter (fun f => decide (preprocessOne f = k)) ≠ [] := by
    obtain ⟨f, hf, hpf⟩ := List.mem_map.1 (show k ∈ files.map preprocessOne from hkmem)
    intro hnil
    have : f ∈ files.filter (fun f => decide (preprocessOne f = k)) :=
      List.mem_filter.2 ⟨hf, by simp [hpf]⟩
    rw [hnil] at this
    simp at this
  refine ⟨hkmem, by rw [hget]; rfl, by rw [hget]; simpa using hne, ?_⟩
  unfold rowsFor
  rw [catMap_filter]
  have hperentry : ∀ e : Str × Str × Nat,
      (List.filter (fun r => decide (r.1 = n))
        (if e.2.2 < t then []
         else ((dictGet (buildMapOrig files) e.2.1).getD []).map
           (fun orig => (e.1, orig, pyRound e.2.2)))) =
      if e.1 = n then
        (if e.2.2 < t then []
         else ((dictGet (buildMapOrig files) e.2.1).getD []).map
           (fun orig => (e.1, orig, pyRound e.2.2)))
      else [] := by
    intro e
    by_cases hlt : e.2.2 < t
    · rw [if_pos hlt]
      by_cases hq : e.1 = n
      · rw [if_pos hq]
        rfl
      · rw [if_neg hq]
        rfl
    · rw [if_neg hlt]
      rw [List.filter_map]
      by_cases hq : e.1 = n
      · rw [if_pos hq]
        congr 1
        rw [List.filter_eq_self]
        intro a _
        simp [Function.comp, hq]
      · rw [if_neg hq]
        have : List.filter ((fun r => decide (r.1 = n)) ∘
            (fun orig : Str => (e.1, orig, pyRound e.2.2)))
            ((dictGet (buildMapOrig files) e.2.1).getD []) = [] := by
          rw [List.filter_eq_nil_iff]
          intro a _
          simp [Function.comp, hq]
        rw [this]
        rfl
  simp only [hperentry]
  have hnd : List.Pairwise (fun a b : Str × Str × Nat => a.1 ≠ b.1)
      (fileMatching score names (preprocessing files)) :=
    (List.pairwise_map).1 (fileMatching_keys_nodup score names (preprocessing files))
  exact catMap_single_key
    (fun e => if e.2.2 < t then []
      else ((dictGet (buildMapOrig files) e.2.1).getD []).map
        (fun orig => (e.1, orig, pyRound e.2.2)))
    (fileMatching score names (preprocessing files)) (n, k, sc) h hnd

/-- Witness for C6 at a concrete match. -/
theorem lookupSafeWitness :
    ("ab").toList ∈ preprocessing [("ab.txt").toList] ∧
    (dictGet (buildMapOrig [("ab.txt").toList]) (("ab").toList)).isSome = true ∧
    (dictGet (buildMapOrig [("ab.txt").toList]) (("ab").toList)).getD [] ≠ [] ∧
    (rowsFor exScore [("ab").toList] [("ab.txt").toList] 50).filter
        (fun r => decide (r.1 = ("ab").toList)) =
      (if 100 < 50 then []
       else ((dictGet (buildMapOrig [("ab.txt").toList]) (("ab").toList)).getD []).map
         (fun orig => (("ab").toList, orig, pyRound 100))) :=
  lookupSafe exScore [("ab").toList] [("ab.txt").toList] 50 (("ab").toList) (("ab").toList)
    100 (by decide)

/-- Claim C7: a row is kept iff its score is at least the threshold (the
rows at threshold t are the unfiltered rows restricted to score ≥ t), rows
sharing a query share their score (so a match's rows are kept or dropped
together), filtering is antitone in the threshold, the threshold validator
accepts only values in [0,100], and the default is 50. -/
theorem thresholdFiltering (score : Str → Str → Nat) (names files : List Str)
    (t t2 : Nat) (v : Int) (u : Nat) (hmono : t ≤ t2) (hv : thresholdType v = some u) :
    rowsFor score names files t =
      (rowsFor score names files 0).filter (fun r => decide (t ≤ r.2.2)) ∧
    (rowsFor score names files t2).length ≤ (rowsFor score names files t).length ∧
    List.Pairwise (fun r r2 : Str × Str × Nat => r.1 = r2.1 → r.2.2 = r2.2.2)
      (rowsFor score names files t) ∧
    u ≤ 100 ∧ defaultThreshold = 50 := by
  refine ⟨rowsFor_eq_filter score names files t, ?_, ?_, ?_, rfl⟩
  · rw [rowsFor_eq_filter score names files t, rowsFor_eq_filter score names files t2]
    refine length_filter_mono _ _ _ ?_
    intro r hr
    simp only [decide_eq_true_eq] at hr ⊢
    omega
  · unfold rowsFor
    have hnd : List.Pairwise (fun a b : Str × Str × Nat => a.1 ≠ b.1)
        (fileMatching score names (preprocessing files)) :=
      (List.pairwise_map).1 (fileMatching_keys_nodup score names (preprocessing files))
    refine catMap_pairwise _ _ _ ?_ ?_
    · intro e _ x hx y hy
      obtain ⟨hx1, hx2⟩ := rows_entry_shape files t e x hx
      obtain ⟨hy1, hy2⟩ := rows_entry_shape files t e y hy
      intro _
      rw [hx2, hy2]
    · refine hnd.imp ?_
      intro a b hab x hx y hy
      obtain ⟨hx1, _⟩ := rows_entry_shape files t a x hx
      obtain ⟨hy1, _⟩ := rows_entry_shape files t b y hy
      intro hxy
      exact absurd (hx1 ▸ hy1 ▸ hxy) hab
  · unfold thresholdType at hv
    split at hv
    · next hc =>
      rw [Option.some.injEq] at hv
      omega
    · simp at hv

/-- Witness for C7 at concrete thresholds 50 ≤ 95 and validator input 50. -/
theorem thresholdFilteringWitness :
    rowsFor exScore [("ab").toList] [("ab.txt").toList] 50 =
      (rowsFor exScore [("ab").toList] [("ab.txt").toList] 0).filter
        (fun r => decide (50 ≤ r.2.2)) ∧
    (rowsFor exScore [("ab").toList] [("ab.txt").toList] 95).length ≤
      (rowsFor exScore [("ab").toList] [("ab.txt").toList] 50).length ∧
    List.Pairwise (fun r r2 : Str × Str × Nat => r.1 = r2.1 → r.2.2 = r2.2.2)
      (rowsFor exScore [("ab").toList] [("ab.txt").toList] 50) ∧
    50 ≤ 100 ∧ defaultThreshold = 50 :=
  thresholdFiltering exScore [("ab").toList] [("ab.txt").toList] 50 95 50 50
    (by decide) (by decide)

/-! ## Normaliser: fuel elimination and scanner structure -/

lemma length_dropWhile_le {α : Type} (p : α → Bool) (l : List α) :
    (l.dropWhile p).length ≤ l.length :=
  (List.dropWhile_suffix p).sublist.length_le

lemma dropWhile_head_false {α : Type} (p : α → Bool) :
    ∀ (l : List α) (a : α) (as : List α), l.dropWhile p = a :: as → p a = false := by
  intro l
  induction l with
  | nil =>
    intro a as h
    simp at h
  | cons x xs ih =>
    intro a as h
    rw [List.dropWhile_cons] at h
    split at h
    · exact ih a as h
    · next hx =>
      injection h with h1 _
      subst h1
      cases hpx : p x
      · rfl
      · exact absurd hpx hx

lemma dropWhile_id_of_head {α : Type} (p : α → Bool) (a : α) (l : List α)
    (h : p a = false) : (a :: l).dropWhile p = a :: l := by
  rw [List.dropWhile_cons, h]
  simp

lemma spanMatch_suffix (l r : Str) (h : spanMatch l = some r) : r <:+ l := by
  rcases hdrop : l.dropWhile isWs with _ | ⟨b, rest⟩
  · simp [spanMatch, hdrop] at h
  · simp only [spanMatch, hdrop] at h
    split at h
    · rcases hdrop2 : rest.dropWhile (fun c => !(isCloseB c)) with _ | ⟨c2, rest3⟩
      · simp [hdrop2] at h
      · simp only [hdrop2, Option.some.injEq] at h
        subst h
        have s1 : rest3.dropWhile isWs <:+ rest3 := List.dropWhile_suffix isWs
        have s2 : rest3 <:+ c2 :: rest3 := List.suffix_cons c2 rest3
        have s3 : c2 :: rest3 <:+ rest :=
          hdrop2 ▸ List.dropWhile_suffix (fun c => !(isCloseB c))
        have s4 : rest <:+ b :: rest := List.suffix_cons b rest
        have s5 : b :: rest <:+ l := hdrop ▸ List.dropWhile_suffix isWs
        exact s1.trans (s2.trans (s3.trans (s4.trans s5)))
    · simp at h

lemma spanMatch_lt (l r : Str) (h : spanMatch l = some r) : r.length < l.length := by
  rcases hdrop : l.dropWhile isWs with _ | ⟨b, rest⟩
  · simp [spanMatch, hdrop] at h
  · simp only [spanMatch, hdrop] at h
    split at h
    · rcases hdrop2 : rest.dropWhile (fun c => !(isCloseB c)) with _ | ⟨c2, rest3⟩
      · simp [hdrop2] at h
      · simp only [hdrop2, Option.some.injEq] at h
        subst h
        have h1 : rest3.length + 1 ≤ rest.length := by
          have := hdrop2 ▸ length_dropWhile_le (fun c => !(isCloseB c)) rest
          simpa using this
        have h2 : rest.length + 1 ≤ l.length := by
          have := hdrop ▸ length_dropWhile_le isWs l
          simpa using this
        have h3 := length_dropWhile_le isWs rest3
        omega
    · simp at h

lemma bsubGo_fuel : ∀ (n m : Nat) (l : Str), l.length ≤ n → l.length ≤ m →
    bsubGo n l = bsubGo m l := by
  intro n
  induction n with
  | zero =>
    intro m l hn _
    rw [Nat.le_zero] at hn
    rw [List.length_eq_zero] at hn
    subst hn
    cases m <;> rfl
  | succ n ih =>
    intro m l hn hm
    cases l with
    | nil => cases m <;> rfl
    | cons c cs =>
      cases m with
      | zero => simp at hm
      | succ m =>
        show (match spanMatch (c :: cs) with
          | some r => ' ' :: bsubGo n r
          | none => c :: bsubGo n cs) =
          (match spanMatch (c :: cs) with
          | some r => ' ' :: bsubGo m r
          | none => c :: bsubGo m cs)
        rcases hs : spanMatch (c :: cs) with _ | r
        · simp only []
          rw [ih m cs (by simpa using hn) (by simpa using hm)]
        · simp only []
          have hr := spanMatch_lt (c :: cs) r hs
          rw [ih m r (by simp at hn hr ⊢; omega) (by simp at hm hr ⊢; omega)]

lemma bracketSub_cons (c : Char) (cs : Str) :
    bracketSub (c :: cs) =
      match spanMatch (c :: cs) with
      | some r => ' ' :: bracketSub r
      | none => c :: bracketSub cs := by
  show bsubGo (c :: cs).length (c :: cs) = _
  rw [show (c :: cs).length = cs.length + 1 from rfl]
  show (match spanMatch (c :: cs) with
    | some r => ' ' :: bsubGo cs.length r
    | none => c :: bsubGo cs.length cs) = _
  rcases hs : spanMatch (c :: cs) with _ | r
  · simp only []
    rw [bsubGo_fuel cs.length cs.length cs (le_refl _) (le_refl _)]
    rfl
  · simp only []
    have hr := spanMatch_lt (c :: cs) r hs
    rw [show bsubGo cs.length r = bracketSub r from
      bsubGo_fuel cs.length r.length r (by simp at hr; omega) (le_refl _)]

lemma pySplitGo_fuel : ∀ (n m : Nat) (l : Str), l.length ≤ n → l.length ≤ m →
    pySplitGo n l = pySplitGo m l := by
  intro n
  induction n with
  | zero =>
    intro m l hn _
    rw [Nat.le_zero] at hn
    rw [List.length_eq_zero] at hn
    subst hn
    cases m <;> rfl
  | succ n ih =>
    intro m l hn hm
    cases l with
    | nil => cases m <;> rfl
    | cons c cs =>
      cases m with
      | zero => simp at hm
      | succ m =>
        show (if isWs c then pySplitGo n cs
          else (c :: cs.takeWhile notWs) :: pySplitGo n (cs.dropWhile notWs)) =
          (if isWs c then pySplitGo m cs
          else (c :: cs.takeWhile notWs) :: pySplitGo m (cs.dropWhile notWs))
        by_cases hc : isWs c
        · rw [if_pos hc, if_pos hc]
          rw [ih m cs (by simpa using hn) (by simpa using hm)]
        · rw [if_neg hc, if_neg hc]
          have hd := length_dropWhile_le notWs cs
          rw [ih m (cs.dropWhile notWs) (by simp at hn ⊢; omega) (by simp at hm ⊢; omega)]

lemma pySplit_cons (c : Char) (cs : Str) :
    pySplit (c :: cs) =
      if isWs c then pySplit cs
      else (c :: cs.takeWhile notWs) :: pySplit (cs.dropWhile notWs) := by
  show pySplitGo (c :: cs).length (c :: cs) = _
  rw [show (c :: cs).length = cs.length + 1 from rfl]
  show (if isWs c then pySplitGo cs.length cs
    else (c :: cs.takeWhile notWs) :: pySplitGo cs.length (cs.dropWhile notWs)) = _
  by_cases hc : isWs c
  · rw [if_pos hc, if_pos hc]
    rfl
  · rw [if_neg hc, if_neg hc]
    have hd := length_dropWhile_le notWs cs
    rw [pySplitGo_fuel cs.length (cs.dropWhile notWs).length (cs.dropWhile notWs) hd
      (le_refl _)]
    rfl

lemma collGo_fuel : ∀ (n m : Nat) (l : Str), l.length ≤ n → l.length ≤ m →
    collGo n l = collGo m l := by
  intro n
  induction n with
  | zero =>
    intro m l hn _
    rw [Nat.le_zero] at hn
    rw [List.length_eq_zero] at hn
    subst hn
    cases m <;> rfl
  | succ n ih =>
    intro m l hn hm
    cases l with
    | nil => cases m <;> rfl
    | cons c cs =>
      cases m with
      | zero => simp at hm
      | succ m =>
        show (if isWs c then ' ' :: collGo n (cs.dropWhile isWs) else c :: collGo n cs) =
          (if isWs c then ' ' :: collGo m (cs.dropWhile isWs) else c :: collGo m cs)
        by_cases hc : isWs c
        · rw [if_pos hc, if_pos hc]
          have hd := length_dropWhile_le isWs cs
          rw [ih m (cs.dropWhile isWs) (by simp at hn ⊢; omega) (by simp at hm ⊢; omega)]
        · rw [if_neg hc, if_neg hc]
          rw [ih m cs (by simpa using hn) (by simpa using hm)]

lemma collapseRuns_cons (c : Char) (cs : Str) :
    collapseRuns (c :: cs) =
      if isWs c then ' ' :: collapseRuns (cs.dropWhile isWs) else c :: collapseRuns cs := by
  show collGo (c :: cs).length (c :: cs) = _
  rw [show (c :: cs).length = cs.length + 1 from rfl]
  show (if isWs c then ' ' :: collGo cs.length (cs.dropWhile isWs)
    else c :: collGo cs.length cs) = _
  by_cases hc : isWs c
  · rw [if_pos hc, if_pos hc]
    have hd := length_dropWhile_le isWs cs
    rw [collGo_fuel cs.length (cs.dropWhile isWs).length (cs.dropWhile isWs) hd (le_refl _)]
    rfl
  · rw [if_neg hc, if_neg hc]
    rfl

/-! ## Character-class facts -/

lemma isWs_elim (c : Char) (h : isWs c = true) :
    c = ' ' ∨ c = '\t' ∨ c = '\n' ∨ c = '\r' ∨ c = '\x0b' ∨ c = '\x0c' := by
  unfold isWs at h
  simp only [Bool.or_eq_true, beq_iff_eq] at h
  tauto

lemma isOpenB_elim (c : Char) (h : isOpenB c = true) :
    c = '[' ∨ c = '(' ∨ c = '\x7b' := by
  unfold isOpenB at h
  simp only [Bool.or_eq_true, beq_iff_eq] at h
  tauto

lemma isCloseB_elim (c : Char) (h : isCloseB c = true) :
    c = ']' ∨ c = ')' ∨ c = '\x7d' := by
  unfold isCloseB at h
  simp only [Bool.or_eq_true, beq_iff_eq] at h
  tauto

lemma ws_not_open (c : Char) (h : isWs c = true) : isOpenB c = false := by
  rcases isWs_elim c h with rfl | rfl | rfl | rfl | rfl | rfl <;> decide

lemma ws_not_close (c : Char) (h : isWs c = true) : isCloseB c = false := by
  rcases isWs_elim c h with rfl | rfl | rfl | rfl | rfl | rfl <;> decide

lemma open_not_ws (c : Char) (h : isOpenB c = true) : isWs c = false := by
  rcases isOpenB_elim c h with rfl | rfl | rfl <;> decide

lemma close_not_ws (c : Char) (h : isCloseB c = true) : isWs c = false := by
  rcases isCloseB_elim c h with rfl | rfl | rfl <;> decide

/-! ## Scanner shape and fixpoints -/

lemma spanMatch_some_shape (l r : Str) (h : spanMatch l = some r) :
    ∃ w1 b mid c2 rest3,
      l = w1 ++ b :: (mid ++ c2 :: rest3) ∧
      (∀ x ∈ w1, isWs x = true) ∧ isOpenB b = true ∧
      (∀ x ∈ mid, isCloseB x = false) ∧ isCloseB c2 = true ∧
      r = rest3.dropWhile isWs := by
  rcases hdrop : l.dropWhile isWs with _ | ⟨b, rest⟩
  · simp [spanMatch, hdrop] at h
  · simp only [spanMatch, hdrop] at h
    split at h
    · next hopen =>
      rcases hdrop2 : rest.dropWhile (fun c => !(isCloseB c)) with _ | ⟨c2, rest3⟩
      · simp [hdrop2] at h
      · simp only [hdrop2, Option.some.injEq] at h
        refine ⟨l.takeWhile isWs, b, rest.takeWhile (fun c => !(isCloseB c)), c2, rest3,
          ?_, ?_, hopen, ?_, ?_, h.symm⟩
        · conv_lhs => rw [← List.takeWhile_append_dropWhile isWs l]
          rw [hdrop]
          congr 1
          congr 1
          conv_lhs => rw [← List.takeWhile_append_dropWhile (fun c => !(isCloseB c)) rest]
          rw [hdrop2]
        · exact fun x hx => List.mem_takeWhile_imp hx
        · intro x hx
          have := List.mem_takeWhile_imp hx
          simpa using this
        · have := dropWhile_head_false (fun c => !(isCloseB c)) rest c2 rest3 hdrop2
          simpa using this
    · simp at h

lemma bracketSub_mem (l : Str) : ∀ c ∈ bracketSub l, c ∈ l ∨ c = ' ' := by
  have main : ∀ (n : Nat) (l : Str), l.length ≤ n → ∀ c ∈ bracketSub l, c ∈ l ∨ c = ' ' := by
    intro n
    induction n with
    | zero =>
      intro l hn
      rw [Nat.le_zero, List.length_eq_zero] at hn
      subst hn
      simp [bracketSub, bsubGo]
    | succ n ih =>
      intro l hn c hc
      cases l with
      | nil => simp [bracketSub, bsubGo] at hc
      | cons a cs =>
        rw [bracketSub_cons] at hc
        rcases hs : spanMatch (a :: cs) with _ | r <;> rw [hs] at hc
        · rcases List.mem_cons.1 hc with rfl | hc
          · exact Or.inl (by simp)
          · rcases ih cs (by simpa using hn) c hc with h2 | h2
            · exact Or.inl (by simp [h2])
            · exact Or.inr h2
        · rcases List.mem_cons.1 hc with rfl | hc
          · exact Or.inr rfl
          · have hlt := spanMatch_lt (a :: cs) r hs
            rcases ih r (by simp at hn hlt ⊢; omega) c hc with h2 | h2
            · exact Or.inl ((spanMatch_suffix (a :: cs) r hs).sublist.subset h2)
            · exact Or.inr h2
  exact main l.length l (le_refl _)

lemma bracketSub_count_le (a : Char) (ha : a ≠ ' ') (l : Str) :
    (bracketSub l).count a ≤ l.count a := by
  have main : ∀ (n : Nat) (l : Str), l.length ≤ n → (bracketSub l).count a ≤ l.count a := by
    intro n
    induction n with
    | zero =>
      intro l hn
      rw [Nat.le_zero, List.length_eq_zero] at hn
      subst hn
      simp [bracketSub, bsubGo]
    | succ n ih =>
      intro l hn
      cases l with
      | nil => simp [bracketSub, bsubGo]
      | cons x cs =>
        rw [bracketSub_cons]
        rcases hs : spanMatch (x :: cs) with _ | r
        · simp only [List.count_cons]
          have := ih cs (by simpa using hn)
          omega
        · have hlt := spanMatch_lt (x :: cs) r hs
          have h1 := ih r (by simp at hn hlt ⊢; omega)
          have h2 : r.count a ≤ (x :: cs).count a :=
            (spanMatch_suffix (x :: cs) r hs).sublist.count_le a
          rw [List.count_cons]
          have hsp : (' ' == a) = false := by
            simp
            exact fun hh => ha hh.symm
          rw [hsp]
          simp only [Bool.false_eq_true, if_false]
          omega
  exact main l.length l (le_refl _)

lemma noSpanB_suffix (xs ys : Str) (h : noSpanB (xs ++ ys) = true) : noSpanB ys = true := by
  induction xs with
  | nil => exact h
  | cons x xs ih =>
    rw [List.cons_append] at h
    unfold noSpanB at h
    rw [Bool.and_eq_true] at h
    exact ih h.2

lemma noSpanB_cons_elim (c : Char) (cs : Str) (h : noSpanB (c :: cs) = true) :
    (isOpenB c = true → hasCloser cs = false) ∧ noSpanB cs = true := by
  unfold noSpanB at h
  rw [Bool.and_eq_true] at h
  refine ⟨?_, h.2⟩
  intro hopen
  have := h.1
  rw [if_pos hopen] at this
  simpa using this

lemma noSpanB_fix (l : Str) (h : noSpanB l = true) : bracketSub l = l := by
  have main : ∀ (n : Nat) (l : Str), l.length ≤ n → noSpanB l = true → bracketSub l = l := by
    intro n
    induction n with
    | zero =>
      intro l hn _
      rw [Nat.le_zero, List.length_eq_zero] at hn
      subst hn
      rfl
    | succ n ih =>
      intro l hn hns
      cases l with
      | nil => rfl
      | cons c cs =>
        have hnone : spanMatch (c :: cs) = none := by
          rcases hs : spanMatch (c :: cs) with _ | r
          · rfl
          · obtain ⟨w1, b, mid, c2, rest3, hsh, hw1, hb, hmid, hc2, hr⟩ :=
              spanMatch_some_shape (c :: cs) r hs
            have hsuf : noSpanB (b :: (mid ++ c2 :: rest3)) = true := by
              rw [hsh] at hns
              exact noSpanB_suffix w1 _ hns
            obtain ⟨hno, _⟩ := noSpanB_cons_elim b _ hsuf
            have := hno hb
            unfold hasCloser at this
            rw [List.any_eq_false] at this
            exact absurd hc2 (by simpa using this c2 (by simp))
        rw [bracketSub_cons, hnone]
        have hcs := (noSpanB_cons_elim c cs hns).2
        rw [ih cs (by simpa using hn) hcs]
  exact main l.length l (le_refl _) h

lemma hasCloser_false_of (l : Str) (h : ∀ x ∈ l, isCloseB x = false) :
    hasCloser l = false := by
  unfold hasCloser
  rw [List.any_eq_false]
  intro x hx
  simp [h x hx]

lemma bracketSub_noSpan (l : Str) : noSpanB (bracketSub l) = true := by
  have main : ∀ (n : Nat) (l : Str), l.length ≤ n → noSpanB (bracketSub l) = true := by
    intro n
    induction n with
    | zero =>
      intro l hn
      rw [Nat.le_zero, List.length_eq_zero] at hn
      subst hn
      rfl
    | succ n ih =>
      intro l hn
      cases l with
      | nil => rfl
      | cons c cs =>
        rw [bracketSub_cons]
        rcases hs : spanMatch (c :: cs) with _ | r
        · show ((if isOpenB c then !hasCloser (bracketSub cs) else true) &&
            noSpanB (bracketSub cs)) = true
          rw [Bool.and_eq_true]
          refine ⟨?_, ih cs (by simpa using hn)⟩
          by_cases hopen : isOpenB c = true
          · rw [if_pos hopen]
            have hdropId : (c :: cs).dropWhile isWs = c :: cs :=
              dropWhile_id_of_head isWs c cs (open_not_ws c hopen)
            have hdc : cs.dropWhile (fun d => !(isCloseB d)) = [] := by
              rcases hdc2 : cs.dropWhile (fun d => !(isCloseB d)) with _ | ⟨c2, r3⟩
              · rfl
              · exfalso
                rw [show spanMatch (c :: cs) = some (r3.dropWhile isWs) from by
                  simp only [spanMatch, hdropId, hdc2]
                  rw [if_pos hopen]] at hs
                simp at hs
            have hnc : ∀ x ∈ cs, isCloseB x = false := by
              rw [List.dropWhile_eq_nil_iff] at hdc
              intro x hx
              have := hdc x hx
              simpa using this
            have hfalse : hasCloser (bracketSub cs) = false := by
              apply hasCloser_false_of
              intro x hx
              rcases bracketSub_mem cs x hx with h2 | rfl
              · exact hnc x h2
              · decide
            rw [hfalse]
            rfl
          · rw [if_neg hopen]
        · show ((if isOpenB ' ' then !hasCloser (bracketSub r) else true) &&
            noSpanB (bracketSub r)) = true
          have hlt := spanMatch_lt (c :: cs) r hs
          rw [Bool.and_eq_true]
          refine ⟨by rw [if_neg (by decide)], ih r (by simp at hn hlt ⊢; omega)⟩
  exact main l.length l (le_refl _)

/-! ## Token structure of split and join -/

lemma takeWhile_eq_self_of {α : Type} (p : α → Bool) (l : List α)
    (h : ∀ x ∈ l, p x = true) : l.takeWhile p = l := by
  induction l with
  | nil => rfl
  | cons x xs ih =>
    rw [List.takeWhile_cons, if_pos (h x (by simp))]
    rw [ih (fun x hx => h x (by simp [hx]))]

lemma notWs_of_not_isWs (c : Char) (h : ¬isWs c = true) : notWs c = true := by
  unfold notWs
  cases hc : isWs c
  · rfl
  · exact absurd hc h

lemma isWs_false_of_notWs (c : Char) (h : notWs c = true) : isWs c = false := by
  unfold notWs at h
  cases hc : isWs c
  · rfl
  · rw [hc] at h
    simp at h

lemma pySplit_good (l : Str) : ∀ t ∈ pySplit l, t ≠ [] ∧ ∀ c ∈ t, notWs c = true := by
  have main : ∀ (n : Nat) (l : Str), l.length ≤ n →
      ∀ t ∈ pySplit l, t ≠ [] ∧ ∀ c ∈ t, notWs c = true := by
    intro n
    induction n with
    | zero =>
      intro l hn
      rw [Nat.le_zero, List.length_eq_zero] at hn
      subst hn
      simp [pySplit, pySplitGo]
    | succ n ih =>
      intro l hn t ht
      cases l with
      | nil => simp [pySplit, pySplitGo] at ht
      | cons c cs =>
        rw [pySplit_cons] at ht
        by_cases hc : isWs c
        · rw [if_pos hc] at ht
          exact ih cs (by simpa using hn) t ht
        · rw [if_neg hc] at ht
          rcases List.mem_cons.1 ht with rfl | ht
          · refine ⟨by simp, ?_⟩
            intro d hd
            rcases List.mem_cons.1 hd with rfl | hd
            · exact notWs_of_not_isWs d hc
            · exact List.mem_takeWhile_imp hd
          · have hlen := length_dropWhile_le notWs cs
            exact ih (cs.dropWhile notWs) (by simp at hn ⊢; omega) t ht
  exact main l.length l (le_refl _)

lemma takeWhile_append_all {α : Type} (p : α → Bool) (t l : List α)
    (h : ∀ c ∈ t, p c = true) (hl : l.takeWhile p = []) :
    (t ++ l).takeWhile p = t := by
  induction t with
  | nil => exact hl
  | cons b bs ih =>
    rw [List.cons_append, List.takeWhile_cons, if_pos (h b (by simp))]
    rw [ih (fun c hc => h c (by simp [hc]))]

lemma dropWhile_append_all {α : Type} (p : α → Bool) (t l : List α)
    (h : ∀ c ∈ t, p c = true) :
    (t ++ l).dropWhile p = l.dropWhile p := by
  induction t with
  | nil => rfl
  | cons b bs ih =>
    rw [List.cons_append, List.dropWhile_cons_of_pos (h b (by simp))]
    exact ih (fun c hc => h c (by simp [hc]))

lemma pySplit_token_append (t l : Str) (ht : t ≠ []) (hgood : ∀ c ∈ t, notWs c = true)
    (hl : l = [] ∨ ∃ c cs, l = c :: cs ∧ isWs c = true) :
    pySplit (t ++ l) = t :: pySplit l := by
  cases t with
  | nil => exact absurd rfl ht
  | cons a t2 =>
    have ha : isWs a = false := isWs_false_of_notWs a (hgood a (by simp))
    rw [List.cons_append, pySplit_cons, if_neg (by simp [ha])]
    have hlt : l.takeWhile notWs = [] := by
      rcases hl with rfl | ⟨c, cs, rfl, hws⟩
      · rfl
      · rw [List.takeWhile_cons, if_neg (by simp [notWs, hws])]
    have hld : l.dropWhile notWs = l := by
      rcases hl with rfl | ⟨c, cs, rfl, hws⟩
      · rfl
      · exact dropWhile_id_of_head notWs c cs (by simp [notWs, hws])
    have hgood2 : ∀ c ∈ t2, notWs c = true := fun c hc => hgood c (by simp [hc])
    rw [takeWhile_append_all notWs t2 l hgood2 hlt]
    rw [dropWhile_append_all notWs t2 l hgood2, hld]

lemma joinSpace_cons2 (t t2 : Str) (ts : List Str) :
    joinSpace (t :: t2 :: ts) = t ++ ' ' :: joinSpace (t2 :: ts) := rfl

lemma pySplit_joinSpace (ts : List Str)
    (h : ∀ t ∈ ts, t ≠ [] ∧ ∀ c ∈ t, notWs c = true) :
    pySplit (joinSpace ts) = ts := by
  induction ts with
  | nil => rfl
  | cons t ts ih =>
    cases ts with
    | nil =>
      obtain ⟨ht, hgood⟩ := h t (by simp)
      have := pySplit_token_append t [] ht hgood (Or.inl rfl)
      rw [List.append_nil] at this
      show pySplit t = [t]
      rw [this]
      rfl
    | cons t2 ts2 =>
      obtain ⟨ht, hgood⟩ := h t (by simp)
      rw [joinSpace_cons2]
      rw [pySplit_token_append t (' ' :: joinSpace (t2 :: ts2)) ht hgood
        (Or.inr ⟨' ', joinSpace (t2 :: ts2), rfl, by decide⟩)]
      congr 1
      rw [show pySplit (' ' :: joinSpace (t2 :: ts2)) = pySplit (joinSpace (t2 :: ts2)) from by
        rw [pySplit_cons, if_pos (by decide)]]
      exact ih (fun t3 ht3 => h t3 (by simp [ht3]))

lemma joinSpace_ne_nil (ts : List Str) (hne : ts ≠ []) (h : ∀ t ∈ ts, t ≠ []) :
    joinSpace ts ≠ [] := by
  cases ts with
  | nil => exact absurd rfl hne
  | cons t ts =>
    cases ts with
    | nil =>
      show t ≠ []
      exact h t (by simp)
    | cons t2 ts2 =>
      rw [joinSpace_cons2]
      rcases ht : t with _ | ⟨a, t3⟩
      · exact absurd ht (h t (by simp))
      · simp

lemma head?_mem {α : Type} (l : List α) (a : α) (h : l.head? = some a) : a ∈ l := by
  cases l with
  | nil => simp at h
  | cons x xs =>
    rw [List.head?_cons, Option.some.injEq] at h
    subst h
    simp

lemma getLast?_mem' {α : Type} (l : List α) (a : α) (h : l.getLast? = some a) : a ∈ l := by
  rw [← List.head?_reverse] at h
  exact List.mem_reverse.1 (head?_mem l.reverse a h)

lemma joinSpace_head_notWs (ts : List Str)
    (h : ∀ t ∈ ts, t ≠ [] ∧ ∀ c ∈ t, notWs c = true) (hne : ts ≠ []) :
    ∃ a as, joinSpace ts = a :: as ∧ isWs a = false := by
  cases ts with
  | nil => exact absurd rfl hne
  | cons t ts =>
    obtain ⟨ht, hgood⟩ := h t (by simp)
    rcases htc : t with _ | ⟨a, t2⟩
    · exact absurd htc ht
    · have ha : isWs a = false := isWs_false_of_notWs a (hgood a (by rw [htc]; simp))
      cases ts with
      | nil => exact ⟨a, t2, rfl, ha⟩
      | cons t3 ts3 =>
        refine ⟨a, t2 ++ ' ' :: joinSpace (t3 :: ts3), ?_, ha⟩
        rw [joinSpace_cons2, List.cons_append]

lemma getLast?_append_right {α : Type} (l₁ l₂ : List α) (h : l₂ ≠ []) :
    (l₁ ++ l₂).getLast? = l₂.getLast? :=
  List.getLast?_append_of_ne_nil l₁ h

lemma joinSpace_last_notWs (ts : List Str)
    (h : ∀ t ∈ ts, t ≠ [] ∧ ∀ c ∈ t, notWs c = true) (hne : ts ≠ []) :
    ∃ a, (joinSpace ts).getLast? = some a ∧ isWs a = false := by
  induction ts with
  | nil => exact absurd rfl hne
  | cons t ts ih =>
    cases ts with
    | nil =>
      obtain ⟨ht, hgood⟩ := h t (by simp)
      rcases hlast : t.getLast? with _ | a
      · rw [List.getLast?_eq_none_iff] at hlast
        exact absurd hlast ht
      · exact ⟨a, hlast, isWs_false_of_notWs a (hgood a (getLast?_mem' t a hlast))⟩
    | cons t2 ts2 =>
      obtain ⟨a, ha, hws⟩ := ih (fun t3 ht3 => h t3 (by simp [ht3])) (by simp)
      refine ⟨a, ?_, hws⟩
      rw [joinSpace_cons2]
      rw [getLast?_append_right _ _ (by simp)]
      rw [show (' ' :: joinSpace (t2 :: ts2)) = [' '] ++ joinSpace (t2 :: ts2) from rfl]
      rw [getLast?_append_right _ _ ?_]
      · exact ha
      · refine joinSpace_ne_nil (t2 :: ts2) (by simp) ?_
        intro t3 ht3
        exact (h t3 (by simp [ht3])).1

lemma pyStrip_id_of (u : Str)
    (hhead : ∀ a as, u = a :: as → isWs a = false)
    (hlast : ∀ a, u.getLast? = some a → isWs a = false) : pyStrip u = u := by
  cases u with
  | nil => rfl
  | cons a as =>
    unfold pyStrip
    rw [dropWhile_id_of_head isWs a as (hhead a as rfl)]
    rcases hrev : (a :: as).reverse with _ | ⟨b, w⟩
    · simp at hrev
    · have hb : (a :: as).getLast? = some b := by
        rw [← List.head?_reverse, hrev]
        rfl
      rw [dropWhile_id_of_head isWs b w (hlast b hb)]
      rw [← hrev, List.reverse_reverse]

lemma pyStrip_joinSplit (z : Str) :
    pyStrip (joinSpace (pySplit z)) = joinSpace (pySplit z) := by
  rcases hts : pySplit z with _ | ⟨t, ts⟩
  · rfl
  · have hgood := pySplit_good z
    rw [hts] at hgood
    apply pyStrip_id_of
    · intro a as heq
      obtain ⟨a2, as2, heq2, hws⟩ := joinSpace_head_notWs (t :: ts) hgood (by simp)
      rw [heq] at heq2
      injection heq2 with h1 _
      rw [h1]
      exact hws
    · intro a heq
      obtain ⟨a2, heq2, hws⟩ := joinSpace_last_notWs (t :: ts) hgood (by simp)
      rw [heq] at heq2
      injection heq2 with h1
      rw [← h1] at hws
      exact hws

/-! ## Character bookkeeping through split, join and filter -/

lemma map_id_of {α : Type} (f : α → α) (l : List α) (h : ∀ a ∈ l, f a = a) :
    l.map f = l := by
  induction l with
  | nil => rfl
  | cons x xs ih =>
    rw [List.map_cons, h x (by simp), ih (fun a ha => h a (by simp [ha]))]

lemma mem_of_takeWhile {α : Type} (p : α → Bool) (l : List α) (c : α)
    (h : c ∈ l.takeWhile p) : c ∈ l :=
  (List.takeWhile_sublist p).mem h

lemma mem_of_dropWhile {α : Type} (p : α → Bool) (l : List α) (c : α)
    (h : c ∈ l.dropWhile p) : c ∈ l :=
  (List.dropWhile_sublist p).mem h

lemma pySplit_mem (l : Str) : ∀ t ∈ pySplit l, ∀ c ∈ t, c ∈ l := by
  have main : ∀ (n : Nat) (l : Str), l.length ≤ n → ∀ t ∈ pySplit l, ∀ c ∈ t, c ∈ l := by
    intro n
    induction n with
    | zero =>
      intro l hn
      rw [Nat.le_zero, List.length_eq_zero] at hn
      subst hn
      simp [pySplit, pySplitGo]
    | succ n ih =>
      intro l hn t ht c hc
      cases l with
      | nil => simp [pySplit, pySplitGo] at ht
      | cons a cs =>
        rw [pySplit_cons] at ht
        by_cases ha : isWs a
        · rw [if_pos ha] at ht
          exact List.mem_cons_of_mem a (ih cs (by simpa using hn) t ht c hc)
        · rw [if_neg ha] at ht
          rcases List.mem_cons.1 ht with rfl | ht
          · rcases List.mem_cons.1 hc with rfl | hc
            · simp
            · exact List.mem_cons_of_mem a (mem_of_takeWhile notWs cs c hc)
          · have hlen := length_dropWhile_le notWs cs
            have := ih (cs.dropWhile notWs) (by simp at hn ⊢; omega) t ht c hc
            exact List.mem_cons_of_mem a (mem_of_dropWhile notWs cs c this)
  exact main l.length l (le_refl _)

lemma mem_joinSpace (ts : List Str) (c : Char) (h : c ∈ joinSpace ts) :
    (∃ t ∈ ts, c ∈ t) ∨ c = ' ' := by
  induction ts with
  | nil => simp [joinSpace] at h
  | cons t ts ih =>
    cases ts with
    | nil =>
      exact Or.inl ⟨t, by simp, h⟩
    | cons t2 ts2 =>
      rw [joinSpace_cons2] at h
      rcases List.mem_append.1 h with h1 | h1
      · exact Or.inl ⟨t, by simp, h1⟩
      · rcases List.mem_cons.1 h1 with rfl | h1
        · exact Or.inr rfl
        · rcases ih h1 with ⟨t3, ht3, hc⟩ | rfl
          · exact Or.inl ⟨t3, by simp [ht3], hc⟩
          · exact Or.inr rfl

lemma mem_joinSplit (z : Str) (c : Char) (h : c ∈ joinSpace (pySplit z)) :
    c ∈ z ∨ c = ' ' := by
  rcases mem_joinSpace (pySplit z) c h with ⟨t, ht, hc⟩ | rfl
  · exact Or.inl (pySplit_mem z t ht c hc)
  · exact Or.inr rfl

lemma filter_eq_self_of {α : Type} (p : α → Bool) (l : List α)
    (h : ∀ a ∈ l, p a = true) : l.filter p = l :=
  List.filter_eq_self.2 h

lemma filter_joinSpace (ts : List Str)
    (h : ∀ t ∈ ts, ∀ c ∈ t, notWs c = true) :
    (joinSpace ts).filter notWs = ts.flatten := by
  induction ts with
  | nil => rfl
  | cons t ts ih =>
    cases ts with
    | nil =>
      show t.filter notWs = t ++ [].flatten
      rw [filter_eq_self_of notWs t (h t (by simp))]
      simp
    | cons t2 ts2 =>
      rw [joinSpace_cons2, List.filter_append, List.flatten_cons]
      rw [filter_eq_self_of notWs t (h t (by simp))]
      congr 1
      rw [show (' ' :: joinSpace (t2 :: ts2)).filter notWs
          = (joinSpace (t2 :: ts2)).filter notWs from by
        rw [List.filter_cons]
        simp [notWs, isWs]]
      exact ih (fun t3 ht3 => h t3 (by simp [ht3]))

lemma flatten_pySplit (z : Str) : (pySplit z).flatten = z.filter notWs := by
  have main : ∀ (n : Nat) (z : Str), z.length ≤ n → (pySplit z).flatten = z.filter notWs := by
    intro n
    induction n with
    | zero =>
      intro z hn
      rw [Nat.le_zero, List.length_eq_zero] at hn
      subst hn
      rfl
    | succ n ih =>
      intro z hn
      cases z with
      | nil => rfl
      | cons c cs =>
        rw [pySplit_cons, List.filter_cons]
        by_cases hc : isWs c
        · rw [if_pos hc, show notWs c = false from by simp [notWs, hc], if_neg (by simp)]
          exact ih cs (by simpa using hn)
        · rw [if_neg hc, show notWs c = true from by simp [notWs, hc], if_pos (by simp)]
          rw [List.flatten_cons, List.cons_append]
          congr 1
          have hlen := length_dropWhile_le notWs cs
          rw [ih (cs.dropWhile notWs) (by simp at hn ⊢; omega)]
          conv_rhs => rw [← List.takeWhile_append_dropWhile notWs cs]
          rw [List.filter_append]
          rw [filter_eq_self_of notWs (cs.takeWhile notWs)
            (fun a ha => List.mem_takeWhile_imp ha)]
  exact main z.length z (le_refl _)

lemma filterNotWs_joinSplit (z : Str) :
    (joinSpace (pySplit z)).filter notWs = z.filter notWs := by
  rw [filter_joinSpace (pySplit z) (fun t ht c hc => (pySplit_good z t ht).2 c hc)]
  exact flatten_pySplit z

/-! ## Span-freedom is a property of the non-whitespace subsequence -/

lemma hasCloser_filter (l : Str) : hasCloser (l.filter notWs) = hasCloser l := by
  induction l with
  | nil => rfl
  | cons c cs ih =>
    rw [List.filter_cons]
    by_cases hc : notWs c
    · rw [if_pos (by simp [hc])]
      show (isCloseB c || hasCloser (cs.filter notWs)) = (isCloseB c || hasCloser cs)
      rw [ih]
    · rw [if_neg (by simp_all)]
      have hws : isWs c = true := by
        unfold notWs at hc
        simpa using hc
      show hasCloser (cs.filter notWs) = (isCloseB c || hasCloser cs)
      rw [ws_not_close c hws, Bool.false_or, ih]

lemma noSpanB_filter (l : Str) : noSpanB (l.filter notWs) = noSpanB l := by
  induction l with
  | nil => rfl
  | cons c cs ih =>
    rw [List.filter_cons]
    by_cases hc : notWs c
    · rw [if_pos (by simp [hc])]
      show ((if isOpenB c then !hasCloser (cs.filter notWs) else true)
        && noSpanB (cs.filter notWs))
        = ((if isOpenB c then !hasCloser cs else true) && noSpanB cs)
      rw [hasCloser_filter, ih]
    · rw [if_neg (by simp_all)]
      have hws : isWs c = true := by
        unfold notWs at hc
        simpa using hc
      show noSpanB (cs.filter notWs) = ((if isOpenB c then !hasCloser cs else true) && noSpanB cs)
      rw [ws_not_open c hws]
      simp only [Bool.false_eq_true, if_false, Bool.true_and]
      exact ih

/-! ## The scanner preserves a harmless last character -/

lemma bracketSub_ne_nil (l : Str) (h : l ≠ []) : bracketSub l ≠ [] := by
  cases l with
  | nil => exact absurd rfl h
  | cons c cs =>
    rw [bracketSub_cons]
    rcases hm : spanMatch (c :: cs) with _ | r
    · simp
    · simp

lemma suffix_getLast? {α : Type} (u t : List α) (h : u <:+ t) (hu : u ≠ []) :
    t.getLast? = u.getLast? := by
  obtain ⟨pre, rfl⟩ := h
  exact List.getLast?_append_of_ne_nil pre hu

lemma bracketSub_last (a : Char) (hws : isWs a = false) (hcl : isCloseB a = false) :
    ∀ l : Str, l.getLast? = some a → (bracketSub l).getLast? = some a := by
  have main : ∀ (n : Nat) (l : Str), l.length ≤ n →
      l.getLast? = some a → (bracketSub l).getLast? = some a := by
    intro n
    induction n with
    | zero =>
      intro l hn
      rw [Nat.le_zero, List.length_eq_zero] at hn
      subst hn
      intro h
      simp at h
    | succ n ih =>
      intro l hn hlast
      cases l with
      | nil => simp at hlast
      | cons c cs =>
        rw [bracketSub_cons]
        rcases hm : spanMatch (c :: cs) with _ | r
        · show ((c :: bracketSub cs)).getLast? = some a
          cases cs with
          | nil =>
            rw [List.getLast?_singleton] at hlast
            show (([c] : Str)).getLast? = some a
            rw [List.getLast?_singleton]
            exact hlast
          | cons d ds =>
            rw [List.getLast?_cons_cons] at hlast
            have hne := bracketSub_ne_nil (d :: ds) (by simp)
            rcases hb : bracketSub (d :: ds) with _ | ⟨e, es⟩
            · exact absurd hb hne
            · have := ih (d :: ds) (by simpa using hn) hlast
              rw [hb] at this
              rw [List.getLast?_cons_cons]
              exact this
        · obtain ⟨w1, b, mid, c2, rest3, heq, hw1, hob, hmid, hc2, hr⟩ :=
            spanMatch_some_shape (c :: cs) r hm
          cases rest3 with
          | nil =>
            have : (c :: cs).getLast? = some c2 := by
              rw [heq, show (b :: (mid ++ [c2])) = (b :: mid) ++ [c2] from by simp,
                ← List.append_assoc]
              exact List.getLast?_concat _
            rw [hlast] at this
            injection this with this
            rw [this] at hcl
            rw [hc2] at hcl
            simp at hcl
          | cons e es =>
            have hlr : (e :: es).getLast? = some a := by
              have : (c :: cs).getLast? = (e :: es).getLast? := by
                rw [heq]
                rw [show (b :: (mid ++ c2 :: e :: es)) = (b :: mid ++ [c2]) ++ (e :: es) from by
                  simp]
                rw [← List.append_assoc]
                exact List.getLast?_append_of_ne_nil _ (show (e :: es) ≠ [] from by simp)
              rw [← this, hlast]
            have hrne : r ≠ [] := by
              intro hrnil
              rw [hrnil] at hr
              have := List.dropWhile_eq_nil_iff.1 hr.symm
              have hmem := getLast?_mem' (e :: es) a hlr
              have := this a hmem
              rw [hws] at this
              simp at this
            have hrl : r.getLast? = some a := by
              rw [hr] at hrne ⊢
              rw [← suffix_getLast? _ _ (List.dropWhile_suffix isWs) hrne]
              exact hlr
            have hrlen : r.length ≤ n := by
              have hd := spanMatch_lt (c :: cs) r hm
              simp at hd hn
              omega
            have := ih r hrlen hrl
            show ((' ' :: bracketSub r)).getLast? = some a
            rcases hb : bracketSub r with _ | ⟨f, fs⟩
            · exact absurd hb (bracketSub_ne_nil r hrne)
            · rw [hb] at this
              rw [List.getLast?_cons_cons]
              exact this
  exact fun l => main l.length l (le_refl _)

lemma filter_getLast {α : Type} (p : α → Bool) (l : List α) (a : α)
    (hl : l.getLast? = some a) (ha : p a = true) :
    (l.filter p).getLast? = some a := by
  rw [← List.head?_reverse] at hl ⊢
  rw [← List.filter_reverse]
  cases hrev : l.reverse with
  | nil => rw [hrev] at hl; simp at hl
  | cons b bs =>
    rw [hrev] at hl
    rw [List.head?_cons, Option.some.injEq] at hl
    subst hl
    rw [List.filter_cons, if_pos (by simp [ha])]
    rfl

/-! ## Fixed points of the stem under the pathlib conditions -/

lemma no_dot_stem (l : Str) (h : ('.') ∉ l) : pyStem l = l := by
  have h2 : l.reverse.dropWhile (fun c => c != '.') = [] := by
    rw [List.dropWhile_eq_nil_iff]
    intro y hy
    have hyl : y ∈ l := List.mem_reverse.1 hy
    have : y ≠ '.' := fun he => h (he ▸ hyl)
    simpa using this
  unfold pyStem
  rw [h2]

lemma trailing_dot_stem (l : Str) (h : l.getLast? = some ('.')) : pyStem l = l := by
  have hh : l.reverse.head? = some ('.') := by
    rw [List.head?_reverse]
    exact h
  rcases hr : l.reverse with _ | ⟨d, w⟩
  · rw [hr] at hh
    simp at hh
  · rw [hr] at hh
    have hd : d = '.' := by simpa using hh
    subst hd
    have h2 : l.reverse.dropWhile (fun c => c != '.') = ('.') :: w := by
      rw [hr]
      exact dropWhile_id_of_head _ _ _ (by decide)
    have h3 : l.reverse.takeWhile (fun c => c != '.') = [] := by
      rw [hr, List.takeWhile_cons, if_neg (by decide)]
    unfold pyStem
    rw [h2]
    show (if l.reverse.takeWhile (fun c => c != '.') = [] ∨ w = [] then l else w.reverse) = l
    rw [if_pos (Or.inl h3)]

lemma first_dot_stem (v : Str) (h : ('.') ∉ v) : pyStem (('.') :: v) = ('.') :: v := by
  have hall : ∀ c ∈ v.reverse, (c != '.') = true := by
    intro c hc
    have hcv : c ∈ v := List.mem_reverse.1 hc
    have : c ≠ '.' := fun he => h (he ▸ hcv)
    simpa using this
  have h2 : (('.') :: v).reverse.dropWhile (fun c => c != '.') = [('.')] := by
    rw [List.reverse_cons]
    rw [dropWhile_append_all _ v.reverse [('.')] hall]
    exact List.dropWhile_cons_of_neg (by decide)
  unfold pyStem
  rw [h2]
  show (if (('.') :: v).reverse.takeWhile (fun c => c != '.') = [] ∨ ([] : Str) = []
    then ('.') :: v else ([] : Str).reverse) = ('.') :: v
  rw [if_pos (Or.inr rfl)]

lemma stem_cases (x : Str) (h : pyStem x = x) :
    ('.') ∉ x ∨ x.getLast? = some ('.') ∨ ∃ u, x = ('.') :: u ∧ ('.') ∉ u := by
  rcases hdrop : x.reverse.dropWhile (fun c => c != '.') with _ | ⟨d, b⟩
  · left
    intro hx
    have := List.dropWhile_eq_nil_iff.1 hdrop ('.') (List.mem_reverse.2 hx)
    simp at this
  · have hd : d = '.' := by
      have := dropWhile_head_false _ x.reverse d b hdrop
      simpa using this
    subst hd
    have h2 : (if x.reverse.takeWhile (fun c => c != '.') = [] ∨ b = [] then x else b.reverse)
        = x := by
      have hs : pyStem x
          = (if x.reverse.takeWhile (fun c => c != '.') = [] ∨ b = [] then x else b.reverse) := by
        unfold pyStem
        rw [hdrop]
      rw [← hs]
      exact h
    by_cases hcond : x.reverse.takeWhile (fun c => c != '.') = [] ∨ b = []
    · rcases hcond with htw | hb
      · right; left
        have hxr : x.reverse = ('.') :: b := by
          conv_lhs => rw [← List.takeWhile_append_dropWhile (fun c => c != '.') x.reverse,
            htw, hdrop]
          rfl
        rw [← List.head?_reverse, hxr]
        rfl
      · right; right
        subst hb
        have hx2 : x.reverse = x.reverse.takeWhile (fun c => c != '.') ++ [('.')] := by
          conv_lhs => rw [← List.takeWhile_append_dropWhile (fun c => c != '.') x.reverse, hdrop]
        have hx3 := congrArg List.reverse hx2
        rw [List.reverse_reverse, List.reverse_append] at hx3
        refine ⟨(x.reverse.takeWhile (fun c => c != '.')).reverse, hx3.trans rfl, ?_⟩
        intro hmem
        have hmem2 : ('.') ∈ x.reverse.takeWhile (fun c => c != '.') := List.mem_reverse.1 hmem
        have := List.mem_takeWhile_imp hmem2
        simp at this
    · rw [if_neg hcond] at h2
      exfalso
      have hlen1 := congrArg List.length h2
      have hlen2 : x.reverse.length
          = (x.reverse.takeWhile (fun c => c != '.')).length + (('.') :: b).length := by
        conv_lhs => rw [← List.takeWhile_append_dropWhile (fun c => c != '.') x.reverse, hdrop]
        rw [List.length_append]
      simp at hlen1 hlen2
      omega

/-! ## Counting and tracking the dot through the pipeline -/

lemma getLast?_map {α β : Type} (f : α → β) (l : List α) :
    (l.map f).getLast? = Option.map f l.getLast? := by
  rw [← List.head?_reverse, ← List.map_reverse, List.head?_map, List.head?_reverse]

lemma count_map_eq (f : Char → Char) (a : Char) (hf : ∀ c, f c = a ↔ c = a) :
    ∀ l : Str, (l.map f).count a = l.count a := by
  intro l
  induction l with
  | nil => rfl
  | cons c cs ih =>
    rw [List.map_cons, List.count_cons, List.count_cons, ih]
    congr 1
    by_cases hc : c = a
    · subst hc
      rw [show f c = c from (hf c).2 rfl]
    · have hfc : f c ≠ a := fun he => hc ((hf c).1 he)
      simp [beq_iff_eq, hc, hfc, Ne.symm hc, Ne.symm hfc]

lemma count_dot_replU (l : Str) : (replUnderscore l).count ('.') = l.count ('.') :=
  count_map_eq _ _ (fun c => by
    constructor
    · intro he
      by_cases hc : c = '_'
      · subst hc
        rw [if_pos (by decide)] at he
        exact absurd he (by decide)
      · rwa [if_neg (by simp [hc])] at he
    · intro he
      subst he
      decide) l

lemma count_dot_replH (l : Str) : (replHyphen l).count ('.') = l.count ('.') :=
  count_map_eq _ _ (fun c => by
    constructor
    · intro he
      by_cases hc : c = '-'
      · subst hc
        rw [if_pos (by decide)] at he
        exact absurd he (by decide)
      · rwa [if_neg (by simp [hc])] at he
    · intro he
      subst he
      decide) l

lemma dot_notin_repl (x : Str) (h : ('.') ∉ x) :
    ('.') ∉ replHyphen (replUnderscore x) := by
  rw [← List.count_eq_zero] at h ⊢
  rw [count_dot_replH, count_dot_replU]
  exact h

lemma repl_getLast_dot (x : Str) (h : x.getLast? = some ('.')) :
    (replHyphen (replUnderscore x)).getLast? = some ('.') := by
  unfold replHyphen replUnderscore
  rw [getLast?_map, getLast?_map, h]
  decide

lemma repl_no_seps (x : Str) : ∀ c ∈ replHyphen (replUnderscore x), c ≠ '_' ∧ c ≠ '-' := by
  intro c hc
  unfold replHyphen replUnderscore at hc
  rw [List.mem_map] at hc
  obtain ⟨a, ha, hac⟩ := hc
  rw [List.mem_map] at ha
  obtain ⟨b, _, hba⟩ := ha
  subst hba
  subst hac
  constructor
  · by_cases hfb : ((if b == '_' then ' ' else b) == '-') = true
    · rw [if_pos hfb]
      decide
    · rw [if_neg hfb]
      by_cases hb2 : (b == '_') = true
      · rw [if_pos hb2]
        decide
      · rw [if_neg hb2]
        intro he
        exact hb2 (by simp [he])
  · by_cases hfb : ((if b == '_' then ' ' else b) == '-') = true
    · rw [if_pos hfb]
      decide
    · rw [if_neg hfb]
      intro he
      exact hfb (beq_iff_eq.mpr he)

lemma count_joinSplit (a : Char) (ha : notWs a = true) (z : Str) :
    (joinSpace (pySplit z)).count a = z.count a := by
  calc (joinSpace (pySplit z)).count a
      = ((joinSpace (pySplit z)).filter notWs).count a := (List.count_filter ha).symm
    _ = (z.filter notWs).count a := by rw [filterNotWs_joinSplit]
    _ = z.count a := List.count_filter ha

lemma joinSpace_cons_head (c : Char) (t : Str) (ts : List Str) :
    joinSpace ((c :: t) :: ts) = c :: joinSpace (t :: ts) := by
  cases ts with
  | nil => rfl
  | cons t2 ts2 => rfl

lemma joinSplit_head (c : Char) (cs : Str) (hc : isWs c = false) :
    ∃ v, joinSpace (pySplit (c :: cs)) = c :: v := by
  rw [pySplit_cons, if_neg (by simp [hc])]
  exact ⟨_, joinSpace_cons_head c _ _⟩

lemma bracketSub_cons_dot (w : Str) : bracketSub (('.') :: w) = ('.') :: bracketSub w := by
  rw [bracketSub_cons]
  have hm : spanMatch (('.') :: w) = none := by
    have hdi : (('.') :: w).dropWhile isWs = ('.') :: w :=
      dropWhile_id_of_head isWs ('.') w (by decide)
    simp only [spanMatch, hdi, show isOpenB ('.') = false from by decide,
      Bool.false_eq_true, if_false]
  rw [hm]

/-! ## Idempotence of the normaliser -/

lemma preprocess_joinSplit_fix (w : Str)
    (hsep : ∀ c ∈ w, c ≠ '_' ∧ c ≠ '-')
    (hstem : pyStem (joinSpace (pySplit (bracketSub w))) = joinSpace (pySplit (bracketSub w))) :
    preprocessOne (joinSpace (pySplit (bracketSub w))) = joinSpace (pySplit (bracketSub w)) := by
  have hymem : ∀ c ∈ joinSpace (pySplit (bracketSub w)), c ≠ '_' ∧ c ≠ '-' := by
    intro c hcy
    rcases mem_joinSplit _ _ hcy with hcz | rfl
    · rcases bracketSub_mem _ _ hcz with hcw | rfl
      · exact hsep c hcw
      · exact ⟨by decide, by decide⟩
    · exact ⟨by decide, by decide⟩
  have hru : replUnderscore (joinSpace (pySplit (bracketSub w)))
      = joinSpace (pySplit (bracketSub w)) :=
    map_id_of _ _ (fun c hc => by
      rw [if_neg (fun hb => (hymem c hc).1 (by simpa using hb))])
  have hrh : replHyphen (joinSpace (pySplit (bracketSub w)))
      = joinSpace (pySplit (bracketSub w)) :=
    map_id_of _ _ (fun c hc => by
      rw [if_neg (fun hb => (hymem c hc).2 (by simpa using hb))])
  have hspan : noSpanB (joinSpace (pySplit (bracketSub w))) = true := by
    rw [← noSpanB_filter, filterNotWs_joinSplit, noSpanB_filter]
    exact bracketSub_noSpan w
  unfold preprocessOne
  rw [hstem, hru, hrh, noSpanB_fix _ hspan,
    pySplit_joinSpace (pySplit (bracketSub w)) (pySplit_good (bracketSub w))]
  exact pyStrip_joinSplit (bracketSub w)

/-- C5: normalization is idempotent on any string whose extension is already
absent (`pyStem x = x`): running `preprocessing`'s per-file transform twice
gives the same result as running it once. -/
theorem normalizeIdempotent (x : Str) (h : pyStem x = x) :
    preprocessOne (preprocessOne x) = preprocessOne x := by
  have hx : preprocessOne x
      = joinSpace (pySplit (bracketSub (replHyphen (replUnderscore x)))) := by
    unfold preprocessOne
    rw [h]
    exact pyStrip_joinSplit _
  rw [hx]
  apply preprocess_joinSplit_fix (replHyphen (replUnderscore x)) (repl_no_seps x)
  rcases stem_cases x h with hnd | hld | ⟨u, rfl, hu⟩
  · apply no_dot_stem
    intro hdy
    rcases mem_joinSplit _ _ hdy with hdz | habs
    · rcases bracketSub_mem _ _ hdz with hdw | habs
      · exact dot_notin_repl x hnd hdw
      · exact absurd habs (by decide)
    · exact absurd habs (by decide)
  · have hwl := repl_getLast_dot x hld
    have hzl := bracketSub_last ('.') (by decide) (by decide) _ hwl
    have hfz : ((bracketSub (replHyphen (replUnderscore x))).filter notWs).getLast?
        = some ('.') :=
      filter_getLast notWs _ _ hzl (by decide)
    rcases hts : pySplit (bracketSub (replHyphen (replUnderscore x))) with _ | ⟨t, ts⟩
    · rfl
    · have hgood := pySplit_good (bracketSub (replHyphen (replUnderscore x)))
      rw [hts] at hgood
      obtain ⟨a, hjl, haws⟩ := joinSpace_last_notWs (t :: ts) hgood (by simp)
      have h1 : ((joinSpace (t :: ts)).filter notWs).getLast? = some a :=
        filter_getLast notWs _ a hjl (by simp [notWs, haws])
      have h2 : ((joinSpace (t :: ts)).filter notWs).getLast? = some ('.') := by
        have hf := filterNotWs_joinSplit (bracketSub (replHyphen (replUnderscore x)))
        rw [hts] at hf
        rw [hf]
        exact hfz
      have ha : a = '.' := Option.some.inj (h1.symm.trans h2)
      apply trailing_dot_stem
      rw [← ha]
      exact hjl
  · have hw : replHyphen (replUnderscore (('.') :: u))
        = ('.') :: replHyphen (replUnderscore u) := rfl
    rw [hw, bracketSub_cons_dot]
    obtain ⟨v, hv⟩ := joinSplit_head ('.') (bracketSub (replHyphen (replUnderscore u)))
      (by decide)
    rw [hv]
    apply first_dot_stem
    have hcz : (bracketSub (replHyphen (replUnderscore u))).count ('.') = 0 := by
      have hle := bracketSub_count_le ('.') (by decide) (replHyphen (replUnderscore u))
      have h3 : (replHyphen (replUnderscore u)).count ('.') = 0 := by
        rw [count_dot_replH, count_dot_replU]
        exact List.count_eq_zero.mpr hu
      omega
    have hcy : (('.') :: v).count ('.')
        = (('.') :: bracketSub (replHyphen (replUnderscore u))).count ('.') := by
      rw [← hv]
      exact count_joinSplit ('.') (by decide) _
    rw [List.count_cons_self, List.count_cons_self, hcz] at hcy
    exact List.count_eq_zero.1 (by omega)

/-- Witness for C5 at a concrete extension-free filename string. -/
theorem normalizeIdempotentWitness :
    pyStem (("a_b (c) d").toList) = ("a_b (c) d").toList ∧
      preprocessOne (preprocessOne (("a_b (c) d").toList))
        = preprocessOne (("a_b (c) d").toList) :=
  ⟨by decide, normalizeIdempotent (("a_b (c) d").toList) (by decide)⟩

/-! ## Collapsing whitespace runs equals split-and-join up to space padding -/

lemma pySplit_dropWhile (cs : Str) : pySplit (cs.dropWhile isWs) = pySplit cs := by
  induction cs with
  | nil => rfl
  | cons c cs ih =>
    by_cases hc : isWs c
    · rw [List.dropWhile_cons_of_pos hc, pySplit_cons, if_pos hc]
      exact ih
    · rw [List.dropWhile_cons_of_neg hc]

lemma dropWhile_append_left {α : Type} (p : α → Bool) (l q : List α)
    (h : l.dropWhile p ≠ []) : (l ++ q).dropWhile p = l.dropWhile p ++ q := by
  induction l with
  | nil => exact absurd rfl h
  | cons a as ih =>
    by_cases hp : p a
    · rw [List.cons_append, List.dropWhile_cons_of_pos hp, List.dropWhile_cons_of_pos hp]
      exact ih (by rwa [List.dropWhile_cons_of_pos hp] at h)
    · rw [List.cons_append, List.dropWhile_cons_of_neg hp, List.dropWhile_cons_of_neg hp,
        List.cons_append]

lemma pyStrip_space_cons (l : Str) : pyStrip ((' ') :: l) = pyStrip l := by
  unfold pyStrip
  rw [List.dropWhile_cons_of_pos (by decide)]

lemma pyStrip_append_ws (l q : Str) (hq : ∀ c ∈ q, c = ' ') :
    pyStrip (l ++ q) = pyStrip l := by
  rcases hdl : l.dropWhile isWs with _ | ⟨d, ds⟩
  · have h1 : (l ++ q).dropWhile isWs = [] := by
      rw [List.dropWhile_eq_nil_iff]
      intro x hx
      rcases List.mem_append.1 hx with h2 | h2
      · exact List.dropWhile_eq_nil_iff.1 hdl x h2
      · rw [hq x h2]
        decide
    unfold pyStrip
    rw [h1, hdl]
  · unfold pyStrip
    rw [dropWhile_append_left isWs l q (by rw [hdl]; simp), hdl, List.reverse_append]
    rw [dropWhile_append_all isWs q.reverse _ (fun c hc => by
      rw [hq c (List.mem_reverse.1 hc)]
      decide)]

lemma head_elim_dropWhile (cs : Str) :
    ((cs.dropWhile isWs).head?.elim false isWs) = false := by
  rcases h : cs.dropWhile isWs with _ | ⟨d, ds⟩
  · rfl
  · exact dropWhile_head_false isWs cs d ds h

lemma collapseRuns_shape (z : Str) : ∃ q : Str, (∀ c ∈ q, c = ' ') ∧
    collapseRuns z
      = (if z.head?.elim false isWs then [(' ')] else [])
        ++ joinSpace (pySplit z) ++ q := by
  have main : ∀ (n : Nat) (z : Str), z.length ≤ n → ∃ q : Str, (∀ c ∈ q, c = ' ') ∧
      collapseRuns z
        = (if z.head?.elim false isWs then [(' ')] else [])
          ++ joinSpace (pySplit z) ++ q := by
    intro n
    induction n with
    | zero =>
      intro z hn
      rw [Nat.le_zero, List.length_eq_zero] at hn
      subst hn
      exact ⟨[], by simp, rfl⟩
    | succ n ih =>
      intro z hn
      cases z with
      | nil => exact ⟨[], by simp, rfl⟩
      | cons c cs =>
        by_cases hc : isWs c
        · obtain ⟨q, hq, hshape⟩ := ih (cs.dropWhile isWs)
            (by have := length_dropWhile_le isWs cs; simp at hn; omega)
          refine ⟨q, hq, ?_⟩
          rw [collapseRuns_cons, if_pos hc, hshape, head_elim_dropWhile cs,
            pySplit_dropWhile cs, pySplit_cons, if_pos hc,
            show ((c :: cs).head?.elim false isWs) = true from by simpa using hc]
          rfl
        · obtain ⟨q, hq, hshape⟩ := ih cs (by simp at hn; omega)
          by_cases hT : cs.takeWhile notWs = []
          · have hDW : cs.dropWhile notWs = cs := by
              cases cs with
              | nil => rfl
              | cons d ds =>
                rw [List.takeWhile_cons] at hT
                by_cases hd : notWs d
                · rw [if_pos hd] at hT
                  simp at hT
                · exact List.dropWhile_cons_of_neg hd
            rcases hps : pySplit cs with _ | ⟨t1, ts1⟩
            · refine ⟨(if (cs.head?.elim false isWs) = true then [(' ')] else ([] : Str)) ++ q,
                ?_, ?_⟩
              · intro x hx
                rcases List.mem_append.1 hx with h2 | h2
                · by_cases hcd : (cs.head?.elim false isWs) = true
                  · rw [if_pos hcd] at h2
                    simpa using h2
                  · rw [if_neg hcd] at h2
                    simp at h2
                · exact hq x h2
              · rw [collapseRuns_cons, pySplit_cons, if_neg hc, hshape, hT, hDW, hps,
                  show ((c :: cs).head?.elim false isWs) = false from by simpa using hc,
                  if_neg hc]
                simp [joinSpace]
            · have hhead : cs.head?.elim false isWs = true := by
                cases cs with
                | nil => simp [pySplit, pySplitGo] at hps
                | cons d ds =>
                  rw [List.takeWhile_cons] at hT
                  by_cases hd : notWs d
                  · rw [if_pos hd] at hT
                    simp at hT
                  · have hdw : isWs d = true := by
                      unfold notWs at hd
                      simpa using hd
                    simpa using hdw
              refine ⟨q, hq, ?_⟩
              rw [collapseRuns_cons, pySplit_cons, if_neg hc, hshape, hT, hDW, hps, hhead,
                show ((c :: cs).head?.elim false isWs) = false from by simpa using hc,
                if_neg hc]
              rfl
          · have hd : cs.dropWhile notWs = []
                ∨ ∃ a as, cs.dropWhile notWs = a :: as ∧ isWs a = true := by
              rcases hdw : cs.dropWhile notWs with _ | ⟨a, as⟩
              · exact Or.inl rfl
              · right
                refine ⟨a, as, rfl, ?_⟩
                have := dropWhile_head_false notWs cs a as hdw
                unfold notWs at this
                simpa using this
            have hsplit : pySplit cs = cs.takeWhile notWs :: pySplit (cs.dropWhile notWs) := by
              conv_lhs => rw [← List.takeWhile_append_dropWhile notWs cs]
              exact pySplit_token_append _ _ hT (fun x hx => List.mem_takeWhile_imp hx) hd
            have hhead2 : cs.head?.elim false isWs = false := by
              cases cs with
              | nil => rfl
              | cons d ds =>
                rw [List.takeWhile_cons] at hT
                by_cases hdd : notWs d
                · simpa using isWs_false_of_notWs d hdd
                · rw [if_neg hdd] at hT
                  exact absurd rfl hT
            refine ⟨q, hq, ?_⟩
            rw [collapseRuns_cons, pySplit_cons, if_neg hc, hshape, hsplit, hhead2,
              show ((c :: cs).head?.elim false isWs) = false from by simpa using hc,
              if_neg hc]
            rw [joinSpace_cons_head]
            rfl
  exact main z.length z (le_refl _)

lemma pyStrip_collapseRuns (z : Str) :
    pyStrip (collapseRuns z) = joinSpace (pySplit z) := by
  obtain ⟨q, hq, hshape⟩ := collapseRuns_shape z
  rw [hshape]
  by_cases hcd : (z.head?.elim false isWs) = true
  · rw [if_pos hcd]
    rw [show (([(' ')] ++ joinSpace (pySplit z)) ++ q)
        = (' ') :: (joinSpace (pySplit z) ++ q) from rfl]
    rw [pyStrip_space_cons, pyStrip_append_ws _ q hq]
    exact pyStrip_joinSplit z
  · rw [if_neg hcd]
    rw [show ((([] : Str) ++ joinSpace (pySplit z)) ++ q)
        = joinSpace (pySplit z) ++ q from by simp]
    rw [pyStrip_append_ws _ q hq]
    exact pyStrip_joinSplit z

/-! ## The reference stem and separator steps agree with the code -/

lemma lastDotIdxAux_none : ∀ (s : Str) (i : Nat),
    s.reverse.dropWhile (fun c => c != '.') = [] → lastDotIdxAux s i = none := by
  intro s
  induction s with
  | nil => intro i _; rfl
  | cons c cs ih =>
    intro i h
    have hall : ∀ x ∈ (c :: cs).reverse, (x != '.') = true := List.dropWhile_eq_nil_iff.1 h
    have hcs : cs.reverse.dropWhile (fun c => c != '.') = [] := by
      rw [List.dropWhile_eq_nil_iff]
      intro x hx
      exact hall x (by rw [List.reverse_cons]; exact List.mem_append.2 (Or.inl hx))
    have hcne : (c == '.') = false := by
      have := hall c (by rw [List.reverse_cons]; exact List.mem_append.2 (Or.inr (by simp)))
      simpa using this
    show (match lastDotIdxAux cs (i + 1) with
      | some j => some j
      | none => if c == '.' then some i else none) = none
    rw [ih (i + 1) hcs]
    show (if c == '.' then some i else none) = none
    rw [hcne]
    rfl

lemma lastDotIdxAux_some : ∀ (s : Str) (i : Nat) (d : Char) (b : Str),
    s.reverse.dropWhile (fun c => c != '.') = d :: b →
    lastDotIdxAux s i = some (i + b.length) := by
  intro s
  induction s with
  | nil => intro i d b h; simp at h
  | cons c cs ih =>
    intro i d b h
    rw [List.reverse_cons] at h
    show (match lastDotIdxAux cs (i + 1) with
      | some j => some j
      | none => if c == '.' then some i else none) = some (i + b.length)
    rcases hcs : cs.reverse.dropWhile (fun c => c != '.') with _ | ⟨d2, b2⟩
    · have hall : ∀ x ∈ cs.reverse, (x != '.') = true := List.dropWhile_eq_nil_iff.1 hcs
      rw [dropWhile_append_all _ cs.reverse [c] hall] at h
      rw [lastDotIdxAux_none cs (i + 1) hcs]
      show (if c == '.' then some i else none) = some (i + b.length)
      by_cases hc : (c == '.') = true
      · rw [if_pos hc]
        have hcd : (c != '.') = false := by simpa using hc
        rw [List.dropWhile_cons_of_neg (by simp [hcd])] at h
        injection h with h1 h2
        subst h2
        rfl
      · rw [if_neg hc]
        have hcb : (c == '.') = false := Bool.eq_false_iff.mpr hc
        have hne : c ≠ '.' := fun he => by rw [he] at hcb; simp at hcb
        have hbne : (c != '.') = true := bne_iff_ne.mpr hne
        rw [List.dropWhile_cons] at h
        rw [if_pos hbne] at h
        simp at h
    · have hne : cs.reverse.dropWhile (fun c => c != '.') ≠ [] := by rw [hcs]; simp
      rw [dropWhile_append_left _ cs.reverse [c] hne, hcs, List.cons_append] at h
      injection h with h1 h2
      rw [ih (i + 1) d2 b2 hcs]
      rw [← h2, List.length_append]
      simp only [Option.some.injEq]
      simp
      omega

lemma refStem_eq_pyStem (s : Str) : refStem s = pyStem s := by
  rcases hdrop : s.reverse.dropWhile (fun c => c != '.') with _ | ⟨d, b⟩
  · have h1 : refStem s = s := by
      unfold refStem
      rw [lastDotIdxAux_none s 0 hdrop]
    have h2 : pyStem s = s := by
      unfold pyStem
      rw [hdrop]
    rw [h1, h2]
  · have hlen : s.length
        = (s.reverse.takeWhile (fun c => c != '.')).length + (b.length + 1) := by
      have h3 := congrArg List.length
        (List.takeWhile_append_dropWhile (fun c => c != '.') s.reverse)
      rw [hdrop] at h3
      simp at h3
      omega
    have href : refStem s = (if 0 < 0 + b.length ∧ 0 + b.length < s.length - 1
        then s.take (0 + b.length) else s) := by
      unfold refStem
      rw [lastDotIdxAux_some s 0 d b hdrop]
    have hpy : pyStem s = (if s.reverse.takeWhile (fun c => c != '.') = [] ∨ b = []
        then s else b.reverse) := by
      unfold pyStem
      rw [hdrop]
    rw [href, hpy]
    by_cases hcond : s.reverse.takeWhile (fun c => c != '.') = [] ∨ b = []
    · rw [if_pos hcond]
      rcases hcond with htw | hb
      · rw [if_neg (by rw [htw] at hlen; simp at hlen; omega)]
      · rw [if_neg (by subst hb; simp)]
    · rw [if_neg hcond]
      push_neg at hcond
      obtain ⟨htw, hb⟩ := hcond
      have hbl := List.length_pos.mpr hb
      have htl := List.length_pos.mpr htw
      rw [if_pos (by constructor <;> omega)]
      have hs : s = (b.reverse ++ [d]) ++ (s.reverse.takeWhile (fun c => c != '.')).reverse := by
        have h2 := congrArg List.reverse
          (List.takeWhile_append_dropWhile (fun c => c != '.') s.reverse)
        rw [hdrop, List.reverse_append, List.reverse_reverse] at h2
        rw [List.reverse_cons] at h2
        exact h2.symm
      rw [Nat.zero_add]
      conv_lhs => rw [hs]
      rw [List.append_assoc, show b.length = b.reverse.length from (List.length_reverse b).symm]
      exact List.take_left _ _

lemma refSep_eq (s : Str) : refSep s = replHyphen (replUnderscore s) := by
  unfold refSep replHyphen replUnderscore
  rw [List.map_map]
  apply List.map_congr_left
  intro c _
  simp only [Function.comp_apply]
  by_cases h1 : (c == '_') = true
  · have hc : c = '_' := by simpa using h1
    subst hc
    decide
  · by_cases h2 : (c == '-') = true
    · have hc : c = '-' := by simpa using h2
      subst hc
      decide
    · rw [if_neg h1, if_neg h2,
        if_neg (by rw [Bool.or_eq_true]; rintro (hh | hh); exacts [h1 hh, h2 hh])]

/-- C4 counterexample: the normaliser does not satisfy the spec's four-step
reference algorithm verbatim.  On ".hidden" the spec's step 1 strips at the
final dot unconditionally while `Path(f).stem` keeps a leading-dot name, and
on "(a]b" the code's regex closes a span at the first closing bracket of any
kind while the spec's wording pairs each opener with its own closer. -/
theorem normalizeReferenceCounterexample :
    preprocessOne ((".hidden").toList) ≠ specNormalize ((".hidden").toList) ∧
      preprocessOne (("(a]b").toList) ≠ specNormalize (("(a]b").toList) :=
  ⟨by decide, by decide⟩

/-- C4 (amended): for every filename string, the normaliser equals the
four-step reference algorithm once step 1 uses pathlib stem semantics (the
final dot starts an extension only when it is neither the first nor the last
character) and step 3 closes each bracketed span at the first closing bracket
of any kind; the result is a pure function of the input and case is
preserved by every step. -/
theorem normalizeReference (f : Str) : preprocessOne f = refNormalize f := by
  unfold preprocessOne refNormalize
  rw [refStem_eq_pyStem, refSep_eq, pyStrip_collapseRuns, pyStrip_joinSplit]
